import Mathlib

/-!
Verification development for the pyoifits table engine
(`pyoifits/hdu/table.py`, `pyoifits/hdu/flux.py`, `oifits/hdu/target.py`).

The Python source is shallowly embedded: Python dicts become ordered
association lists, numpy record arrays become lists of abstract rows
(for the merge engine) or lists of typed columns (for the verification
engine), and code that can raise becomes `Option`- or `Except`-valued.
-/

namespace OIFits

/-! ### Python dict model

A Python `dict` preserves insertion order; setting an existing key
overwrites the value in place, setting a fresh key appends at the end.
-/

def dictSet {β : Type} (m : List (Int × β)) (k : Int) (v : β) : List (Int × β) :=
  if m.any (fun p => p.1 == k) then
    m.map (fun p => if p.1 == k then (k, v) else p)
  else m ++ [(k, v)]

def dictGet {β : Type} (m : List (Int × β)) (k : Int) : Option β :=
  (m.find? (fun p => p.1 == k)).map (fun p => p.2)

def dictKeys {β : Type} (m : List (Int × β)) : List Int :=
  m.map (fun p => p.1)

/-! ### Integer ranges and the smallest unused positive integer -/

/-- `intRange s n` is the list `[s, s+1, ..., s+n-1]`, the model of
Python `range(s, s+n)`. -/
def intRange (s : Int) : Nat → List Int
  | 0 => []
  | n + 1 => s :: intRange (s + 1) n

/-- The smallest positive integer not occurring in `used`
(total: among `used.length + 1` distinct positives one is free). -/
def smallestUnused (used : List Int) : Int :=
  ((intRange 1 (used.length + 1)).filter (fun x => decide (x ∉ used))).headD 1

/-! ### Merge of FITS rows, from `_merge_fits_rows` (`table.py`, lines 120-158)

Rows are abstract (`Row`), with `idOf` extracting the identifier column
value and `eqr` the caller-supplied row equality.  The candidate pool
`candidate_id2` of line 134-136 is an ascending list; `pop(0)` raises on
an empty list, so the loop is `Option`-valued.
-/

/-- `candidate_id2 = sorted(set(range(1, 1+len(id1)+len(id2))) - set([*id1, *id2]))`. -/
def candidatePool (id1 id2 : List Int) : List Int :=
  (intRange 1 (id1.length + id2.length)).filter
    (fun x => decide (x ∉ id1) && decide (x ∉ id2))

variable {Row : Type}

/-- The inner loop of `_merge_fits_rows` over one subsequent input
(`for j, row2 in enumerate(rows2)`): equality is tested against the rows
kept from *previous* inputs (`flatKept`, the flattening of `kept`),
`id1` accumulates every identifier in use, `kept_lines` selects the kept
rows and `index_map` is built as a Python dict.  `id1[index]` out of
range and `pop(0)` on an empty pool are the failure cases. -/
def processRows (idOf : Row → Int) (eqr : Row → Row → Bool) (flatKept : List Row) :
    List Row → List Row → List (Int × Int) → List Int → List Int →
      Option (List Row × List (Int × Int) × List Int × List Int)
  | [], keptAcc, mapAcc, id1, pool => some (keptAcc, mapAcc, id1, pool)
  | r :: rs, keptAcc, mapAcc, id1, pool =>
    match flatKept.findIdx? (fun x => eqr r x) with
    | some i =>
      match id1[i]? with
      | none => none
      | some v =>
        processRows idOf eqr flatKept rs keptAcc (dictSet mapAcc (idOf r) v) id1 pool
    | none =>
      if idOf r ∈ id1 then
        match pool with
        | [] => none
        | v :: pool' =>
          processRows idOf eqr flatKept rs (keptAcc ++ [r])
            (dictSet mapAcc (idOf r) v) (id1 ++ [v]) pool'
      else
        processRows idOf eqr flatKept rs (keptAcc ++ [r])
          (dictSet mapAcc (idOf r) (idOf r)) (id1 ++ [idOf r]) pool

/-- The outer loop of `_merge_fits_rows` (`for rows2 in rows[1:]`): the
candidate pool is rebuilt per input from the current `id1`, the per-input
map is filtered to the entries whose old and new identifiers differ. -/
def mergeRowsOuter (idOf : Row → Int) (eqr : Row → Row → Bool) :
    List (List Row) → List (List Row) → List (List (Int × Int)) → List Int →
      Option (List (List Row) × List (List (Int × Int)))
  | [], kept, maps, _ => some (kept, maps)
  | rows2 :: rest, kept, maps, id1 =>
    let id2 := rows2.map idOf
    let pool := candidatePool id1 id2
    match processRows idOf eqr kept.flatten rows2 [] [] id1 pool with
    | none => none
    | some (kept2, imap, id1', _) =>
      mergeRowsOuter idOf eqr rest (kept ++ [kept2])
        (maps ++ [imap.filter (fun p => decide (p.1 ≠ p.2))]) id1'

/-- `_merge_fits_rows(*rows, id_name=..., equality=...)` with an
identifier column given: `kept` starts as `[rows1]`, `maps` as `[{}]`,
`id1` as the first input's identifier list. -/
def mergeFitsRowsId (idOf : Row → Int) (eqr : Row → Row → Bool)
    (first : List Row) (rest : List (List Row)) :
    Option (List (List Row) × List (List (Int × Int))) :=
  mergeRowsOuter idOf eqr rest [first] [[]] (first.map idOf)

/-- `_merge_fits_rows(*rows)` with `id_name=None` (`table.py` line 122-123):
the inputs are returned unchanged together with a single empty map. -/
def mergeFitsRowsNoId (rowss : List (List Row)) :
    List (List Row) × List (List (Int × Int)) :=
  (rowss, [[]])

/-! ### Row assembly in `_merge_helper` (`table.py`, lines 552-564) -/

/-- The identifier column written for one input's kept rows:
`[map.get(i, i) for i in data[name]]` when the map is non-empty, the raw
values otherwise (`if map and name == id_name`). -/
def mapRowIds (idOf : Row → Int) (m : List (Int × Int)) (rows : List Row) : List Int :=
  if m = [] then rows.map idOf
  else rows.map (fun r => (dictGet m (idOf r)).getD (idOf r))

/-- The identifier column of the merged table: the per-input mapped
identifier segments, concatenated in input order (`zip(rows, maps)`
truncates to the shorter list, as in Python). -/
def mergedIdColumn (idOf : Row → Int) (kept : List (List Row))
    (maps : List (List (Int × Int))) : List Int :=
  ((kept.zip maps).map (fun p => mapRowIds idOf p.2 p.1)).flatten

/-- Writing one input's rows into the preallocated merged table at a row
offset (`merged.data[name][rowmin:rowmax][...] = values`). -/
def listWriteAt {α : Type} (l : List α) (start : Nat) (vals : List α) : List α :=
  l.take start ++ vals ++ l.drop (start + vals.length)

/-- The fill loop of `_merge_helper`: the merged table is created with
`nrows` fill rows, then `for data, map in zip(rows, maps)` copies each
input's segment at the running offset. -/
def assembleRows (fill : Row) (nrows : Nat)
    (pairs : List (List Row × List (Int × Int))) : List Row :=
  (pairs.foldl (fun acc p => (listWriteAt acc.1 acc.2 p.1, acc.2 + p.1.length))
    (List.replicate nrows fill, 0)).1

/-- `_OITableHDU.merge` / `_merge_helper` without an identifier column
(the default), at the level of whole rows: `_merge_fits_rows` yields
`(rows, [{}])` and the assembly loop zips the row sets with that
single-element map list. -/
def mergeHelperNoId (fill : Row) (rowss : List (List Row)) :
    List Row × List (List (Int × Int)) :=
  let rm := mergeFitsRowsNoId rowss
  let nrows := (rm.1.map List.length).sum
  (assembleRows fill nrows (rm.1.zip rm.2), rm.2)

/-! ### Cascade to referrer tables (`table.py`, lines 566-573)

`for old, new in map.items(): field[field == old] = new` rewrites the
foreign-key column in place, entry after entry; per element this is a
left fold over the map entries. -/

def seqRewrite (m : List (Int × Int)) (v : Int) : Int :=
  m.foldl (fun x p => if x = p.1 then p.2 else x) v

def cascadeField (m : List (Int × Int)) (field : List Int) : List Int :=
  field.map (seqRewrite m)

/-- The identifier-assignment policy as the specification words it
(merge step 4): a row matching no accepted row is kept and keeps its
original identifier when that identifier is used neither in the accepted
identifier space (`acc`) nor elsewhere in the to-be-accepted identifier
space of the input being merged (`id2all` minus the row's own
occurrence); otherwise it receives the smallest unused positive integer;
a dropped row maps to the matching kept row's identifier; the map holds
exactly the entries whose old and new identifiers differ.  Spec-side
definition, to be compared with `processRows`. -/
def specProcess (idOf : Row → Int) (eqr : Row → Row → Bool) (flatKept : List Row)
    (id2all : List Int) :
    List Row → List Int → List Row × List (Int × Int) × List Int
  | [], acc => ([], [], acc)
  | r :: rs, acc =>
    match flatKept.findIdx? (fun x => eqr r x) with
    | some i =>
      let n := acc.getD i 0
      let out := specProcess idOf eqr flatKept id2all rs acc
      (out.1, if idOf r ≠ n then (idOf r, n) :: out.2.1 else out.2.1, out.2.2)
    | none =>
      let v := if idOf r ∉ acc ∧ idOf r ∉ id2all.erase (idOf r) then idOf r
               else smallestUnused (acc ++ id2all)
      let out := specProcess idOf eqr flatKept id2all rs (acc ++ [v])
      (r :: out.1, if idOf r ≠ v then (idOf r, v) :: out.2.1 else out.2.1, out.2.2)

/-! ### The verification engine (`_OITableHDU._verify`, table.py 307-398)

Columns are typed by a kind (numeric or string) and a width; numeric
casts preserve the payload exactly (the modelled claims do not depend on
float rounding), string casts truncate to the declared width, exactly as
`numpy` does when building an array of a narrower string dtype; casting
across kinds raises, modelled by `none`.  `_dtype_descr` is injective on
the modelled types, so the type check compares `Dtype` values directly.
-/

inductive Dtype
  | num (bytes : Nat)
  | str (width : Nat)
deriving DecidableEq

inductive Val
  | i (n : Int)
  | s (txt : String)
deriving DecidableEq

def castVal : Dtype → Val → Option Val
  | .num _, .i n => some (.i n)
  | .str w, .s t => some (.s (t.take w))
  | _, _ => none

def dtypeKind : Dtype → Bool
  | .num _ => true
  | .str _ => false

def valKind : Val → Bool
  | .i _ => true
  | .s _ => false

structure Column where
  name : String
  dtype : Dtype
  unit : String
  shape : List Nat
  values : List Val
deriving DecidableEq

/-- A shape dimension of a Column Descriptor: a concrete size or the
symbolic number-of-spectral-channels token `_u.NW`. -/
inductive ShapeDim
  | const (n : Nat)
  | nwave
deriving DecidableEq

/-- One `_COLUMNS` entry: `(name, required, type, shape, test, default,
unit, comment)`; the comment is not modelled. -/
structure ColDesc where
  name : String
  required : Bool
  dtype : Dtype
  shape : List ShapeDim
  test : Option (Val → Bool)
  default : Option Val
  unit : String

structure Table where
  columns : List Column
  nwaves : Nat
deriving DecidableEq

inductive Finding
  | missingColumn (name : String)
  | typeMismatch (name : String)
  | unitMismatch (name : String)
  | shapeMismatch (name : String)
  | nonStdNames (names : List String)
  | misnamed (oldName : String) (newName : String)
deriving DecidableEq

def Finding.fixable : Finding → Bool
  | .missingColumn _ => false
  | .typeMismatch _ => true
  | .unitMismatch _ => true
  | .shapeMismatch _ => false
  | .nonStdNames _ => true
  | .misnamed _ _ => true

inductive VOption
  | warn
  | fix
deriving DecidableEq

def lookupColumn (cols : List Column) (name : String) : Option Column :=
  cols.find? (fun c => c.name == name)

/-- Mutation of the one column object retrieved by name
(`self.columns[name]`). -/
def updateColumn : List Column → String → (Column → Column) → List Column
  | [], _, _ => []
  | c :: cs, name, f =>
    if c.name = name then f c :: cs else c :: updateColumn cs name f

def resolveShape (nwaves : Nat) (shape : List ShapeDim) : List Nat :=
  shape.map (fun d => match d with | .const n => n | .nwave => nwaves)

def schemaNames (schema : List ColDesc) : List String :=
  schema.map (fun d => d.name)

def columnNames (t : Table) : List String :=
  t.columns.map (fun c => c.name)

/-- Python `'_' in name`. -/
def hasUnderscore (s : String) : Bool := s.data.contains '_'

/-- One iteration of the `for coldesc in OI_COLUMNS` loop of `_verify`
(table.py 323-378), threading `(table, errors, column_casts)`.  In order:
the type check queues a cast and reports a fixable finding (its `fix` is
a no-op, the cast is batched at the end); the unit check overwrites the
unit metadata in repair mode; the shape check resolves the symbolic
spectral-channel token and reports unfixably; the per-value check
computes the invalid entries and, when a default exists and is castable
to the column's *stored* dtype, overwrites them in repair mode — the
Finding built for it is never appended to the errors (table.py line 378
has no `errors.append`), so it is created and dropped. -/
def checkOiColumn (opt : VOption) (st : Table × List Finding × List String)
    (d : ColDesc) : Table × List Finding × List String :=
  match lookupColumn st.1.columns d.name with
  | none => st
  | some col =>
    let typeBad : Bool := decide (col.dtype ≠ d.dtype)
    let casts1 := if typeBad then st.2.2 ++ [d.name] else st.2.2
    let errs1 := if typeBad then st.2.1 ++ [Finding.typeMismatch d.name] else st.2.1
    let unitBad : Bool := decide (col.unit ≠ d.unit)
    let ucols := updateColumn st.1.columns d.name (fun c => { c with unit := d.unit })
    let t1 := if unitBad && decide (opt = VOption.fix) then
        { st.1 with columns := ucols }
      else st.1
    let errs2 := if unitBad then errs1 ++ [Finding.unitMismatch d.name] else errs1
    let shapeBad : Bool := decide (resolveShape st.1.nwaves d.shape ≠ col.shape)
    let errs3 := if shapeBad then errs2 ++ [Finding.shapeMismatch d.name] else errs2
    match d.test with
    | none => (t1, errs3, casts1)
    | some test =>
      let invalid : Bool := col.values.any (fun v => ! test v)
      if invalid then
        match d.default with
        | none => (t1, errs3, casts1)
        | some dv =>
          match castVal col.dtype dv with
          | none => (t1, errs3, casts1)
          | some dcast =>
            let vcols := updateColumn t1.columns d.name (fun c =>
              { c with values := c.values.map (fun v => if test v then v else dcast) })
            let t2 := if decide (opt = VOption.fix) then
                { t1 with columns := vcols }
              else t1
            (t2, errs3, casts1)
      else (t1, errs3, casts1)

/-- `rename_columns` applied to the non-standard-name substitution. -/
def renameNonStd (cols : List Column) (subst : List String) : List Column :=
  cols.map (fun c => if subst.contains c.name then
    { c with name := "NS_" ++ c.name } else c)

/-- `_cast_column` (table.py 60-65): a new column with the declared
format and unit; the value conversion that astropy performs when the row
storage is rebuilt is folded in, and a conversion failure makes the whole
cast fail. -/
def castVals (dt : Dtype) : List Val → Option (List Val)
  | [] => some []
  | v :: vs =>
    match castVal dt v with
    | none => none
    | some w => (castVals dt vs).map (fun ws => w :: ws)

def castColumn (d : ColDesc) (c : Column) : Option Column :=
  (castVals d.dtype c.values).map
    (fun vals => { c with dtype := d.dtype, unit := d.unit, values := vals })

/-- `_cast_columns` (table.py 67-81): every column whose name matches a
schema descriptor and whose format differs is cast; a failing cast is
swallowed (`except: pass`) and the column kept as-is. -/
def castColumns (cols : List Column) (colsdesc : List ColDesc) : List Column :=
  cols.map (fun col =>
    match colsdesc.find? (fun d => d.name == col.name) with
    | none => col
    | some d =>
      if d.dtype ≠ col.dtype then
        match castColumn d col with
        | none => col
        | some c => c
      else col)

/-- `_OITableHDU._verify(option)` (table.py 307-398): required-column
check, the per-descriptor loop, the non-standard-name check (a name is
accepted when it is schema-declared or contains an underscore), and the
batched rebuild of the row storage whenever any cast was queued (the
rebuild runs in both modes, as in the source). -/
def verifyTable (schema : List ColDesc) (opt : VOption) (t : Table) :
    Table × List Finding :=
  let errs0 := (schema.filter (fun d => d.required)).foldl
    (fun acc d => if (columnNames t).contains d.name then acc
                  else acc ++ [Finding.missingColumn d.name]) []
  let st := schema.foldl (checkOiColumn opt) (t, errs0, [])
  let subst := (columnNames st.1).filter
    (fun n => !((schemaNames schema).contains n) && !(hasUnderscore n))
  let t2 := if subst ≠ [] ∧ opt = VOption.fix then
      { st.1 with columns := renameNonStd st.1.columns subst } else st.1
  let errs := if subst ≠ [] then st.2.1 ++ [Finding.nonStdNames subst] else st.2.1
  let t3 := if st.2.2 ≠ [] then
      { t2 with columns := castColumns t2.columns schema } else t2
  (t3, errs)

/-- A verification pass in repair mode, returning the repaired table. -/
def repairTable (schema : List ColDesc) (t : Table) : Table :=
  (verifyTable schema VOption.fix t).1

/-- The fixable findings a report-only pass returns. -/
def fixableFindings (schema : List ColDesc) (t : Table) : List Finding :=
  ((verifyTable schema VOption.warn t).2).filter Finding.fixable

/-- Observation used for C6: the schema columns present in the table
whose declared per-value validator rejects at least one stored value. -/
def invalidColumns (schema : List ColDesc) (t : Table) : List String :=
  (schema.filter (fun d =>
    match d.test, lookupColumn t.columns d.name with
    | some test, some col => col.values.any (fun v => ! test v)
    | _, _ => false)).map (fun d => d.name)

/-- `_FluxHDU._verify` (flux.py 120-134): builds the FLUX-renaming
finding, applies the rename in repair mode, collects the superclass
findings and appends — and then reaches the end of the function body
without a `return`, so Python returns `None`; the computed findings are
bound and discarded exactly as the source discards them. -/
def fluxVerify (schema : List ColDesc) (opt : VOption) (t : Table) :
    Option (List Finding) :=
  let names := t.columns.map (fun c => c.name)
  let renameNeeded : Bool := !(names.contains "FLUXDATA") && names.contains "FLUX"
  let rcols := updateColumn t.columns "FLUX" (fun c => { c with name := "FLUXDATA" })
  let t1 := if renameNeeded && decide (opt = VOption.fix) then
      { t with columns := rcols }
    else t
  let errs := (verifyTable schema opt t1).2
  let _errs := if renameNeeded then
      errs ++ [Finding.misnamed "FLUX" "FLUXDATA"] else errs
  none

/-! ### The cross-match resolver (`_OITableHDU._xmatch`, table.py 269-283) -/

/-- `_xmatch`: `xmatch = dict(zip(ref_indices, ref_values))`, then
`[xmatch[i] for i in indices]`; a missing key raises `KeyError`, which
aborts the whole resolution (modelled by `none`).  The optional
concatenate mode only post-processes a successful resolution and is not
modelled. -/
def pyDict {β : Type} (ps : List (Int × β)) : List (Int × β) :=
  ps.foldl (fun m p => dictSet m p.1 p.2) []

/-- The comprehension `[xmatch[i] for i in indices]`: the first missing
key raises, aborting the whole list. -/
def lookupAll {β : Type} (m : List (Int × β)) : List Int → Option (List β)
  | [] => some []
  | i :: is =>
    match dictGet m i with
    | none => none
    | some v => (lookupAll m is).map (fun vs => v :: vs)

def xmatch (refIndices : List Int) (refValues : List Val) (indices : List Int) :
    Option (List Val) :=
  lookupAll (pyDict (refIndices.zip refValues)) indices

/-! ### Column union (`_merge_fits_columns`, table.py 98-118) -/

structure FitsCol where
  name : String
  dtype : Dtype
deriving DecidableEq

/-- `_minimal_fits_column` (table.py 83-96): a fresh column carrying the
schema-declared type; only name and type are modelled. -/
def minimalFitsColumn (d : ColDesc) : FitsCol := ⟨d.name, d.dtype⟩

/-- `_merge_fits_columns` (table.py 98-118): unions columns by name in
first-appearance order across the inputs; for a schema-declared name it
computes the canonical column into `col` (line 114) — and then appends
the original `c` (line 117), leaving `col` unused, as the source does. -/
def mergeFitsColumns (oicolumns : List ColDesc) (hdus : List (List FitsCol)) :
    List FitsCol :=
  (hdus.foldl (fun st hdu =>
    hdu.foldl (fun st c =>
      if (st.2).contains c.name then st
      else
        let _col := match oicolumns.find? (fun d => d.name == c.name) with
          | some coldesc => minimalFitsColumn coldesc
          | none => c
        (st.1 ++ [c], st.2 ++ [c.name])) st) (([], []) : List FitsCol × List String)).1

/-- `_cast_columns` (table.py 67-81) at the column-declaration level, as
run by the `from_columns` override (table.py 208-218): a column whose
name matches a schema descriptor and whose format differs from the
declared one (`spec != real`) is rebuilt by `_cast_column`
(table.py 60-65) with the declared format; with only name and format
modelled the rebuild is total (the `except: pass` guards the value
conversion astropy performs, which has no counterpart at this level). -/
def castFitsColumns (cols : List FitsCol) (colsdesc : List ColDesc) :
    List FitsCol :=
  cols.map (fun col =>
    match colsdesc.find? (fun d => d.name == col.name) with
    | none => col
    | some d =>
      if d.dtype ≠ col.dtype then (⟨col.name, d.dtype⟩ : FitsCol) else col)

/-- The column pipeline of `_merge_helper` (table.py 540 and 552): the
union computed by `_merge_fits_columns` is handed to `cls.from_columns`,
whose override (table.py 208-218) reshapes it through `_cast_columns`
against the schema registry before the merged table is created. -/
def mergeHelperColumns (oicolumns : List ColDesc) (hdus : List (List FitsCol)) :
    List FitsCol :=
  castFitsColumns (mergeFitsColumns oicolumns hdus) oicolumns

/-- Spec-side definition for C5: "the union by name of all inputs'
columns in first-appearance order" — the inputs' column names with
later repeats dropped. -/
def firstAppearanceNames (hdus : List (List FitsCol)) : List String :=
  (hdus.flatten.map (fun c => c.name)).foldl
    (fun acc n => if acc.contains n then acc else acc ++ [n]) []

/-! ### Table construction (`_OITableHDU.from_data`, table.py 603-670) -/

/-- The column-assembly part of `from_data`: schema columns are consumed
from the supplied (upper-cased) keyword dict, required-but-missing ones
take the schema default; every leftover non-schema column reaches
`fcols.appen(fcol)` (table.py line 667), a misspelling of `append`, which
raises `AttributeError` on its first iteration. -/
def fromDataColumns (schema : List ColDesc) (columns : List (String × Val)) :
    Except String (List (String × Option Val)) :=
  let cols := columns.map (fun p => (p.1.toUpper, p.2))
  let official := schema.foldl (fun acc d =>
      match cols.find? (fun p => p.1 == d.name) with
      | some p => acc ++ [(d.name, some p.2)]
      | none => if d.required then acc ++ [(d.name, d.default)] else acc)
    []
  let leftover := cols.filter (fun p => !((schemaNames schema).contains p.1))
  match leftover with
  | [] => Except.ok official
  | _ :: _ =>
    Except.error "AttributeError: list object has no attribute appen"

/-! ### Concrete schema entries and tables used by the findings -/

/-- `_is_category` (target.py): `s in ['SCI', 'CAL']`. -/
def isCategoryStr : Val → Bool
  | .s t => decide (t = "SCI" ∨ t = "CAL")
  | _ => false

/-- The `CATEGORY` column of `TargetHDU2` (target.py):
`('CATEGORY', False, '<U3', (), _is_category, 'SCI', None)`. -/
def categoryDesc : ColDesc :=
  ⟨"CATEGORY", false, Dtype.str 3, [], some isCategoryStr, some (Val.s "SCI"), ""⟩

/-- A table storing `CATEGORY` in a narrower 2-character string column,
holding the invalid value `"XX"`. -/
def narrowCategoryTable : Table :=
  ⟨[⟨"CATEGORY", Dtype.str 2, "", [], [Val.s "XX"]⟩], 0⟩

/-- A table whose `CATEGORY` column has the declared width but an
invalid value. -/
def invalidCategoryTable : Table :=
  ⟨[⟨"CATEGORY", Dtype.str 3, "", [], [Val.s "XX"]⟩], 0⟩

/-- A table with one non-schema column whose name contains an underscore
but does not carry the `NS_` convention tag. -/
def underscoreNameTable : Table :=
  ⟨[⟨"FOO_BAR", Dtype.num 2, "", [], [Val.i 0]⟩], 0⟩

/-- The `TARGET` column of `TargetHDU1` (target.py):
`('TARGET', True, '<U16', (), _u.is_nonempty, None, None)`; the validator
is not needed for the column-union claim. -/
def targetNameDesc : ColDesc := ⟨"TARGET", true, Dtype.str 16, [], none, none, ""⟩

/-! ### Lemmas about the dict model -/

theorem dictSet_fresh {β : Type} (m : List (Int × β)) (k : Int) (v : β)
    (h : ∀ p ∈ m, p.1 ≠ k) : dictSet m k v = m ++ [(k, v)] := by
  have hany : m.any (fun p => p.1 == k) = false := by
    rw [List.any_eq_false]
    intro p hp
    simpa using h p hp
  rw [dictSet, hany]
  simp

@[simp]
theorem dictGet_nil {β : Type} (k : Int) : dictGet ([] : List (Int × β)) k = none := rfl

theorem dictGet_cons {β : Type} (p : Int × β) (m : List (Int × β)) (k : Int) :
    dictGet (p :: m) k = if p.1 = k then some p.2 else dictGet m k := by
  by_cases h : p.1 = k
  · rw [if_pos h, dictGet, List.find?_cons_of_pos _ (by simp [h])]
    rfl
  · rw [if_neg h, dictGet, List.find?_cons_of_neg _ (by simp [h])]
    rfl

theorem dictGet_eq_none {β : Type} (m : List (Int × β)) (k : Int)
    (h : ∀ p ∈ m, p.1 ≠ k) : dictGet m k = none := by
  have hfind : m.find? (fun p => p.1 == k) = none := by
    rw [List.find?_eq_none]
    intro p hp
    simpa using h p hp
  rw [dictGet, hfind]
  rfl

theorem dictKeys_nil : dictKeys ([] : List (Int × Int)) = [] := rfl

theorem dictKeys_cons {β : Type} (p : Int × β) (m : List (Int × β)) :
    dictKeys (p :: m) = p.1 :: dictKeys m := rfl

/-- With pairwise distinct keys, filtering the identity entries out of a
dict does not change a defaulted lookup: a removed entry had `old = new`,
and the default is the key itself. -/
theorem dictGet_filter_getD (m : List (Int × Int)) (k : Int)
    (h : (dictKeys m).Nodup) :
    (dictGet (m.filter (fun p => decide (p.1 ≠ p.2))) k).getD k
      = (dictGet m k).getD k := by
  induction m with
  | nil => rfl
  | cons p m ih =>
    rw [dictKeys_cons, List.nodup_cons] at h
    rw [List.filter_cons]
    by_cases hpv : p.1 = p.2
    · rw [if_neg (by simp [hpv])]
      rw [dictGet_cons]
      by_cases hpk : p.1 = k
      · rw [if_pos hpk]
        have hnone : dictGet (m.filter (fun q => decide (q.1 ≠ q.2))) k = none := by
          apply dictGet_eq_none
          intro q hq hqk
          apply h.1
          have hqm : q ∈ m := List.mem_of_mem_filter hq
          have hmem : q.1 ∈ dictKeys m := List.mem_map_of_mem (fun p => p.1) hqm
          rwa [hqk, ← hpk] at hmem
        rw [hnone]
        show k = p.2
        rw [← hpk, hpv]
      · rw [if_neg hpk]
        exact ih h.2
    · rw [if_pos (by simp [hpv])]
      rw [dictGet_cons, dictGet_cons]
      by_cases hpk : p.1 = k
      · rw [if_pos hpk, if_pos hpk]
      · rw [if_neg hpk, if_neg hpk]
        exact ih h.2

/-! ### Lemmas about `intRange` and `smallestUnused` -/

theorem mem_intRange {x s : Int} {n : Nat} :
    x ∈ intRange s n ↔ s ≤ x ∧ x < s + n := by
  induction n generalizing s with
  | zero => simp [intRange]
  | succ n ih =>
    simp only [intRange, List.mem_cons, ih]
    constructor
    · rintro (rfl | ⟨h1, h2⟩)
      · omega
      · omega
    · intro ⟨h1, h2⟩
      rcases eq_or_ne x s with rfl | hne
      · exact Or.inl rfl
      · exact Or.inr ⟨by omega, by omega⟩

theorem intRange_pairwise (s : Int) (n : Nat) :
    (intRange s n).Pairwise (· < ·) := by
  induction n generalizing s with
  | zero => exact List.Pairwise.nil
  | succ n ih =>
    refine List.Pairwise.cons (fun x hx => ?_) (ih (s + 1))
    have := mem_intRange.mp hx
    omega

theorem intRange_nodup (s : Int) (n : Nat) : (intRange s n).Nodup :=
  (intRange_pairwise s n).imp (fun h => ne_of_lt h)

theorem intRange_length (s : Int) (n : Nat) : (intRange s n).length = n := by
  induction n generalizing s with
  | zero => rfl
  | succ n ih => simp [intRange, ih]

/-- Pigeonhole: among `used.length + 1` distinct positive integers, at
least one does not occur in `used`. -/
theorem smallestUnused_filter_ne_nil (used : List Int) :
    (intRange 1 (used.length + 1)).filter (fun x => decide (x ∉ used)) ≠ [] := by
  intro hempty
  have hsub : ∀ x ∈ intRange 1 (used.length + 1), x ∈ used := by
    intro x hx
    by_contra hnot
    have : x ∈ (intRange 1 (used.length + 1)).filter (fun x => decide (x ∉ used)) :=
      List.mem_filter.mpr ⟨hx, by simpa using hnot⟩
    rw [hempty] at this
    exact absurd this (List.not_mem_nil x)
  have hcard : (intRange 1 (used.length + 1)).length ≤ used.length := by
    have h1 : (intRange 1 (used.length + 1)).toFinset.card
        = (intRange 1 (used.length + 1)).length :=
      List.toFinset_card_of_nodup (intRange_nodup 1 (used.length + 1))
    have h2 : (intRange 1 (used.length + 1)).toFinset ⊆ used.toFinset := by
      intro x hx
      rw [List.mem_toFinset] at hx ⊢
      exact hsub x hx
    calc (intRange 1 (used.length + 1)).length
        = (intRange 1 (used.length + 1)).toFinset.card := h1.symm
      _ ≤ used.toFinset.card := Finset.card_le_card h2
      _ ≤ used.length := used.toFinset_card_le
  rw [intRange_length] at hcard
  omega

theorem smallestUnused_not_mem (used : List Int) : smallestUnused used ∉ used := by
  unfold smallestUnused
  obtain ⟨y, l, hl⟩ := List.exists_cons_of_ne_nil (smallestUnused_filter_ne_nil used)
  rw [hl, List.headD_cons]
  have : y ∈ (intRange 1 (used.length + 1)).filter (fun x => decide (x ∉ used)) := by
    rw [hl]; exact List.mem_cons_self y l
  simpa using (List.mem_filter.mp this).2

theorem smallestUnused_pos (used : List Int) : 1 ≤ smallestUnused used := by
  unfold smallestUnused
  obtain ⟨y, l, hl⟩ := List.exists_cons_of_ne_nil (smallestUnused_filter_ne_nil used)
  rw [hl, List.headD_cons]
  have : y ∈ (intRange 1 (used.length + 1)).filter (fun x => decide (x ∉ used)) := by
    rw [hl]; exact List.mem_cons_self y l
  exact (mem_intRange.mp (List.mem_of_mem_filter this)).1

theorem smallestUnused_min (used : List Int) (x : Int) (hx : 1 ≤ x)
    (hnot : x ∉ used) : smallestUnused used ≤ x := by
  unfold smallestUnused
  obtain ⟨y, l, hl⟩ := List.exists_cons_of_ne_nil (smallestUnused_filter_ne_nil used)
  rw [hl, List.headD_cons]
  have hy : y ∈ (intRange 1 (used.length + 1)).filter (fun x => decide (x ∉ used)) := by
    rw [hl]; exact List.mem_cons_self y l
  have hyr := mem_intRange.mp (List.mem_of_mem_filter hy)
  rcases le_or_lt x (used.length : Int) with hle | hgt
  · have hxmem : x ∈ (intRange 1 (used.length + 1)).filter (fun x => decide (x ∉ used)) :=
      List.mem_filter.mpr ⟨mem_intRange.mpr ⟨hx, by omega⟩, by simpa using hnot⟩
    rw [hl] at hxmem
    have hpw : ((y :: l).Pairwise (· < ·)) := by
      rw [← hl]
      exact (intRange_pairwise 1 (used.length + 1)).sublist
        (List.filter_sublist _)
    rcases List.mem_cons.mp hxmem with rfl | hxl
    · exact le_refl x
    · exact le_of_lt ((List.pairwise_cons.mp hpw).1 x hxl)
  · omega

/-! ### Invariants of the inner merge loop -/

theorem dictSet_nil {β : Type} (k : Int) (v : β) : dictSet [] k v = [(k, v)] := rfl

/-- The kept-row and map accumulators of the inner loop are write-only:
a run from arbitrary accumulators is the run from empty accumulators with
the initial contents prepended (dict insertion appends, as all keys that
will be inserted are fresh). -/
theorem processRows_acc (idOf : Row → Int) (eqr : Row → Row → Bool)
    (flatKept : List Row) (rs : List Row) (keptAcc : List Row)
    (mapAcc : List (Int × Int)) (id1 pool : List Int)
    (hNodup : (rs.map idOf).Nodup)
    (hfresh : ∀ p ∈ mapAcc, p.1 ∉ rs.map idOf) :
    processRows idOf eqr flatKept rs keptAcc mapAcc id1 pool
      = (processRows idOf eqr flatKept rs [] [] id1 pool).map
          (fun o => (keptAcc ++ o.1, mapAcc ++ o.2.1, o.2.2)) := by
  induction rs generalizing keptAcc mapAcc id1 pool with
  | nil => simp [processRows]
  | cons r rs ih =>
    have hhead : idOf r ∉ rs.map idOf := by
      rw [List.map_cons, List.nodup_cons] at hNodup
      exact hNodup.1
    have htail : (rs.map idOf).Nodup := by
      rw [List.map_cons, List.nodup_cons] at hNodup
      exact hNodup.2
    have hset : ∀ w, dictSet mapAcc (idOf r) w = mapAcc ++ [(idOf r, w)] := by
      intro w
      apply dictSet_fresh
      intro p hp he
      exact hfresh p hp (he ▸ List.mem_map_of_mem idOf (List.mem_cons_self r rs))
    have hfresh' : ∀ w, ∀ p ∈ mapAcc ++ [(idOf r, w)], p.1 ∉ rs.map idOf := by
      intro w p hp
      rcases List.mem_append.mp hp with h | h
      · intro hmem
        exact hfresh p h (List.mem_cons_of_mem _ hmem)
      · rw [List.mem_singleton] at h
        rw [h]
        exact hhead
    have hsing : ∀ w : Int, ∀ p ∈ [(idOf r, w)], p.1 ∉ rs.map idOf := by
      intro w p hp
      rw [List.mem_singleton] at hp
      rw [hp]
      exact hhead
    cases hfi : flatKept.findIdx? (fun x => eqr r x) with
    | some i =>
      cases hgi : id1[i]? with
      | none => simp [processRows, hfi, hgi]
      | some v =>
        simp only [processRows, hfi, hgi]
        rw [hset v, dictSet_nil,
          ih keptAcc (mapAcc ++ [(idOf r, v)]) id1 pool htail (hfresh' v),
          ih [] [(idOf r, v)] id1 pool htail (hsing v)]
        cases processRows idOf eqr flatKept rs [] [] id1 pool with
        | none => rfl
        | some o => simp
    | none =>
      by_cases hmem : idOf r ∈ id1
      · cases pool with
        | nil => simp [processRows, hfi, hmem]
        | cons v pool' =>
          simp only [processRows, hfi, if_pos hmem]
          rw [hset v, dictSet_nil,
            ih (keptAcc ++ [r]) (mapAcc ++ [(idOf r, v)]) (id1 ++ [v]) pool'
              htail (hfresh' v)]
          simp only [List.nil_append]
          rw [ih [r] [(idOf r, v)] (id1 ++ [v]) pool' htail (hsing v)]
          cases processRows idOf eqr flatKept rs [] [] (id1 ++ [v]) pool' with
          | none => rfl
          | some o => simp
      · simp only [processRows, hfi, if_neg hmem]
        rw [hset (idOf r), dictSet_nil,
          ih (keptAcc ++ [r]) (mapAcc ++ [(idOf r, idOf r)]) (id1 ++ [idOf r]) pool
            htail (hfresh' (idOf r))]
        simp only [List.nil_append]
        rw [ih [r] [(idOf r, idOf r)] (id1 ++ [idOf r]) pool htail (hsing (idOf r))]
        cases processRows idOf eqr flatKept rs [] [] (id1 ++ [idOf r]) pool with
        | none => rfl
        | some o => simp

/-- Post-conditions of the inner loop: the map has one entry per row of
the input, in processing order; the accumulated identifier list extends
`id1` by exactly the new identifiers of the kept rows (read back from the
map); every map value is in use; kept rows form a sublist of the input. -/
theorem processRows_main (idOf : Row → Int) (eqr : Row → Row → Bool)
    (flatKept : List Row) (rs : List Row) (id1 pool : List Int)
    (K : List Row) (M : List (Int × Int)) (I P : List Int)
    (hNodup : (rs.map idOf).Nodup)
    (hrun : processRows idOf eqr flatKept rs [] [] id1 pool = some (K, M, I, P)) :
    dictKeys M = rs.map idOf
    ∧ I = id1 ++ K.map (fun r => (dictGet M (idOf r)).getD (idOf r))
    ∧ (∀ p ∈ M, p.2 ∈ I)
    ∧ K.Sublist rs := by
  induction rs generalizing id1 pool K M I P with
  | nil =>
    simp only [processRows, Option.some.injEq, Prod.mk.injEq] at hrun
    obtain ⟨hK, hM, hI, hP⟩ := hrun
    subst hK
    subst hM
    subst hI
    refine ⟨rfl, by simp, by simp, List.Sublist.refl []⟩
  | cons r rs ih =>
    have hhead : idOf r ∉ rs.map idOf := by
      rw [List.map_cons, List.nodup_cons] at hNodup
      exact hNodup.1
    have htail : (rs.map idOf).Nodup := by
      rw [List.map_cons, List.nodup_cons] at hNodup
      exact hNodup.2
    have hsing : ∀ w : Int, ∀ p ∈ [(idOf r, w)], p.1 ∉ rs.map idOf := by
      intro w p hp
      rw [List.mem_singleton] at hp
      rw [hp]
      exact hhead
    have hmapeq : ∀ (w : Int) (M' : List (Int × Int)) (K' : List Row),
        K'.Sublist rs →
        K'.map (fun x => (dictGet ((idOf r, w) :: M') (idOf x)).getD (idOf x))
          = K'.map (fun x => (dictGet M' (idOf x)).getD (idOf x)) := by
      intro w M' K' hsub
      apply List.map_congr_left
      intro x hx
      rw [dictGet_cons, if_neg]
      intro he
      have he' : idOf r = idOf x := he
      apply hhead
      rw [he']
      exact List.mem_map_of_mem idOf (hsub.subset hx)
    cases hfi : flatKept.findIdx? (fun x => eqr r x) with
    | some i =>
      cases hgi : id1[i]? with
      | none => simp [processRows, hfi, hgi] at hrun
      | some v =>
        simp only [processRows, hfi, hgi] at hrun
        rw [dictSet_nil,
          processRows_acc idOf eqr flatKept rs [] [(idOf r, v)] id1 pool htail
            (hsing v)] at hrun
        cases hX : processRows idOf eqr flatKept rs [] [] id1 pool with
        | none => rw [hX] at hrun; exact absurd hrun (by simp)
        | some o =>
          rw [hX] at hrun
          obtain ⟨K', M', I', P'⟩ := o
          simp only [Option.map_some', Option.some.injEq, Prod.mk.injEq,
            List.nil_append, List.singleton_append] at hrun
          obtain ⟨hK, hM, hI, hP⟩ := hrun
          subst hK
          subst hM
          subst hI
          obtain ⟨ihKeys, ihI, ihVals, ihSub⟩ := ih id1 pool K' M' I' P' htail hX
          refine ⟨?_, ?_, ?_, ihSub.cons r⟩
          · rw [dictKeys_cons, ihKeys, List.map_cons]
          · rw [ihI, hmapeq v M' K' ihSub]
          · intro p hp
            rcases List.mem_cons.mp hp with rfl | hp'
            · rw [ihI]
              exact List.mem_append_left _ (List.getElem?_mem hgi)
            · exact ihVals p hp'
    | none =>
      by_cases hmem : idOf r ∈ id1
      · cases pool with
        | nil => simp [processRows, hfi, hmem] at hrun
        | cons v pool' =>
          simp only [processRows, hfi, if_pos hmem] at hrun
          rw [dictSet_nil] at hrun
          simp only [List.nil_append] at hrun
          rw [processRows_acc idOf eqr flatKept rs [r] [(idOf r, v)]
            (id1 ++ [v]) pool' htail (hsing v)] at hrun
          cases hX : processRows idOf eqr flatKept rs [] [] (id1 ++ [v]) pool' with
          | none => rw [hX] at hrun; exact absurd hrun (by simp)
          | some o =>
            rw [hX] at hrun
            obtain ⟨K', M', I', P'⟩ := o
            simp only [Option.map_some', Option.some.injEq, Prod.mk.injEq,
              List.singleton_append] at hrun
            obtain ⟨hK, hM, hI, hP⟩ := hrun
            subst hK
            subst hM
            subst hI
            obtain ⟨ihKeys, ihI, ihVals, ihSub⟩ :=
              ih (id1 ++ [v]) pool' K' M' I' P' htail hX
            refine ⟨?_, ?_, ?_, ihSub.cons₂ r⟩
            · rw [dictKeys_cons, ihKeys, List.map_cons]
            · rw [ihI, List.map_cons, hmapeq v M' K' ihSub, dictGet_cons,
                if_pos rfl, Option.getD_some, List.append_assoc,
                List.singleton_append]
            · intro p hp
              rcases List.mem_cons.mp hp with rfl | hp'
              · rw [ihI]
                exact List.mem_append_left _
                  (List.mem_append_right _ (List.mem_singleton_self v))
              · exact ihVals p hp'
      · simp only [processRows, hfi, if_neg hmem] at hrun
        rw [dictSet_nil] at hrun
        simp only [List.nil_append] at hrun
        rw [processRows_acc idOf eqr flatKept rs [r] [(idOf r, idOf r)]
          (id1 ++ [idOf r]) pool htail (hsing (idOf r))] at hrun
        cases hX : processRows idOf eqr flatKept rs [] [] (id1 ++ [idOf r]) pool with
        | none => rw [hX] at hrun; exact absurd hrun (by simp)
        | some o =>
          rw [hX] at hrun
          obtain ⟨K', M', I', P'⟩ := o
          simp only [Option.map_some', Option.some.injEq, Prod.mk.injEq,
              List.singleton_append] at hrun
          obtain ⟨hK, hM, hI, hP⟩ := hrun
          subst hK
          subst hM
          subst hI
          obtain ⟨ihKeys, ihI, ihVals, ihSub⟩ :=
            ih (id1 ++ [idOf r]) pool K' M' I' P' htail hX
          refine ⟨?_, ?_, ?_, ihSub.cons₂ r⟩
          · rw [dictKeys_cons, ihKeys, List.map_cons]
          · rw [ihI, List.map_cons, hmapeq (idOf r) M' K' ihSub, dictGet_cons,
              if_pos rfl, Option.getD_some, List.append_assoc,
              List.singleton_append]
          · intro p hp
            rcases List.mem_cons.mp hp with rfl | hp'
            · rw [ihI]
              exact List.mem_append_left _
                (List.mem_append_right _ (List.mem_singleton_self (idOf r)))
            · exact ihVals p hp'

/-! ### The candidate pool invariant

Through the inner loop the pool stays exactly the ascending list of the
integers in `[1, B)` used neither in the accumulated identifiers nor in
the current input's identifier set. -/

theorem poolMem_extend_own (id1 id2all pool : List Int) (B o : Int)
    (ho : o ∈ id2all)
    (hpm : ∀ x, x ∈ pool ↔ 1 ≤ x ∧ x < B ∧ x ∉ id1 ∧ x ∉ id2all) :
    ∀ x, x ∈ pool ↔ 1 ≤ x ∧ x < B ∧ x ∉ id1 ++ [o] ∧ x ∉ id2all := by
  intro x
  rw [hpm x]
  constructor
  · rintro ⟨a, b, c, d⟩
    refine ⟨a, b, ?_, d⟩
    intro hx
    rcases List.mem_append.mp hx with h | h
    · exact c h
    · rw [List.mem_singleton] at h
      exact d (h ▸ ho)
  · rintro ⟨a, b, c, d⟩
    exact ⟨a, b, fun hx => c (List.mem_append_left _ hx), d⟩

theorem poolMem_pop (id1 id2all pool' : List Int) (B v : Int)
    (hpw : (v :: pool').Pairwise (· < ·))
    (hpm : ∀ x, x ∈ v :: pool' ↔ 1 ≤ x ∧ x < B ∧ x ∉ id1 ∧ x ∉ id2all) :
    ∀ x, x ∈ pool' ↔ 1 ≤ x ∧ x < B ∧ x ∉ id1 ++ [v] ∧ x ∉ id2all := by
  intro x
  constructor
  · intro hx
    obtain ⟨a, b, c, d⟩ := (hpm x).mp (List.mem_cons_of_mem v hx)
    refine ⟨a, b, ?_, d⟩
    intro hmem
    rcases List.mem_append.mp hmem with h | h
    · exact c h
    · rw [List.mem_singleton] at h
      have := (List.pairwise_cons.mp hpw).1 x hx
      omega
  · rintro ⟨a, b, c, d⟩
    have hxv : x ≠ v := by
      intro he
      exact c (List.mem_append_right _ (he ▸ List.mem_singleton_self v))
    have : x ∈ v :: pool' :=
      (hpm x).mpr ⟨a, b, fun hx => c (List.mem_append_left _ hx), d⟩
    rcases List.mem_cons.mp this with h | h
    · exact absurd h hxv
    · exact h

/-- When the pool is the canonical unused set, its head is the smallest
positive integer not used in the accumulated or to-be-accepted space. -/
theorem pool_head_eq_smallestUnused (id1 id2all pool' : List Int) (B v : Int)
    (hpw : (v :: pool').Pairwise (· < ·))
    (hpm : ∀ x, x ∈ v :: pool' ↔ 1 ≤ x ∧ x < B ∧ x ∉ id1 ∧ x ∉ id2all) :
    v = smallestUnused (id1 ++ id2all) := by
  have hv := (hpm v).mp (List.mem_cons_self v pool')
  have hsu_le : smallestUnused (id1 ++ id2all) ≤ v := by
    apply smallestUnused_min _ v hv.1
    rw [List.mem_append]
    rintro (h | h)
    · exact hv.2.2.1 h
    · exact hv.2.2.2 h
  have hsu_not := smallestUnused_not_mem (id1 ++ id2all)
  have hsu_pos := smallestUnused_pos (id1 ++ id2all)
  have hsu_mem : smallestUnused (id1 ++ id2all) ∈ v :: pool' := by
    rw [List.mem_append] at hsu_not
    push_neg at hsu_not
    exact (hpm _).mpr ⟨hsu_pos, lt_of_le_of_lt hsu_le hv.2.1,
      hsu_not.1, hsu_not.2⟩
  rcases List.mem_cons.mp hsu_mem with h | h
  · exact h.symm
  · have := (List.pairwise_cons.mp hpw).1 _ h
    omega

/-- The accumulated identifier list stays duplicate-free through the
inner loop: a kept row's own identifier is only reused when absent from
the accumulated set, and pool identifiers are never in use. -/
theorem processRows_nodup (idOf : Row → Int) (eqr : Row → Row → Bool)
    (flatKept : List Row) (id2all : List Int) (B : Int)
    (rs : List Row) (id1 pool : List Int)
    (K : List Row) (M : List (Int × Int)) (I P : List Int)
    (h1 : id1.Nodup)
    (hsub : ∀ r ∈ rs, idOf r ∈ id2all)
    (hNodup : (rs.map idOf).Nodup)
    (hpw : pool.Pairwise (· < ·))
    (hpm : ∀ x, x ∈ pool ↔ 1 ≤ x ∧ x < B ∧ x ∉ id1 ∧ x ∉ id2all)
    (hrun : processRows idOf eqr flatKept rs [] [] id1 pool = some (K, M, I, P)) :
    I.Nodup := by
  induction rs generalizing id1 pool K M I P with
  | nil =>
    simp only [processRows, Option.some.injEq, Prod.mk.injEq] at hrun
    obtain ⟨hK, hM, hI, hP⟩ := hrun
    subst hI
    exact h1
  | cons r rs ih =>
    have hhead : idOf r ∉ rs.map idOf := by
      rw [List.map_cons, List.nodup_cons] at hNodup
      exact hNodup.1
    have htail : (rs.map idOf).Nodup := by
      rw [List.map_cons, List.nodup_cons] at hNodup
      exact hNodup.2
    have hsing : ∀ w : Int, ∀ p ∈ [(idOf r, w)], p.1 ∉ rs.map idOf := by
      intro w p hp
      rw [List.mem_singleton] at hp
      rw [hp]
      exact hhead
    have hsubtail : ∀ x ∈ rs, idOf x ∈ id2all :=
      fun x hx => hsub x (List.mem_cons_of_mem r hx)
    have ho : idOf r ∈ id2all := hsub r (List.mem_cons_self r rs)
    cases hfi : flatKept.findIdx? (fun x => eqr r x) with
    | some i =>
      cases hgi : id1[i]? with
      | none => simp [processRows, hfi, hgi] at hrun
      | some v =>
        simp only [processRows, hfi, hgi] at hrun
        rw [dictSet_nil,
          processRows_acc idOf eqr flatKept rs [] [(idOf r, v)] id1 pool htail
            (hsing v)] at hrun
        cases hX : processRows idOf eqr flatKept rs [] [] id1 pool with
        | none => rw [hX] at hrun; exact absurd hrun (by simp)
        | some o =>
          rw [hX] at hrun
          obtain ⟨K', M', I', P'⟩ := o
          simp only [Option.map_some', Option.some.injEq, Prod.mk.injEq,
            List.nil_append, List.singleton_append] at hrun
          obtain ⟨hK, hM, hI, hP⟩ := hrun
          subst hI
          exact ih id1 pool K' M' I' P' h1 hsubtail htail hpw hpm hX
    | none =>
      by_cases hmem : idOf r ∈ id1
      · cases pool with
        | nil => simp [processRows, hfi, hmem] at hrun
        | cons v pool' =>
          simp only [processRows, hfi, if_pos hmem] at hrun
          rw [dictSet_nil] at hrun
          simp only [List.nil_append] at hrun
          rw [processRows_acc idOf eqr flatKept rs [r] [(idOf r, v)]
            (id1 ++ [v]) pool' htail (hsing v)] at hrun
          cases hX : processRows idOf eqr flatKept rs [] [] (id1 ++ [v]) pool' with
          | none => rw [hX] at hrun; exact absurd hrun (by simp)
          | some o =>
            rw [hX] at hrun
            obtain ⟨K', M', I', P'⟩ := o
            simp only [Option.map_some', Option.some.injEq, Prod.mk.injEq,
              List.singleton_append] at hrun
            obtain ⟨hK, hM, hI, hP⟩ := hrun
            subst hI
            have hv := (hpm v).mp (List.mem_cons_self v pool')
            have h1' : (id1 ++ [v]).Nodup :=
              List.Nodup.append h1 (List.nodup_singleton v)
                (fun a ha hb => by
                  rw [List.mem_singleton] at hb
                  exact hv.2.2.1 (hb ▸ ha))
            exact ih (id1 ++ [v]) pool' K' M' I' P' h1' hsubtail htail
              ((List.pairwise_cons.mp hpw).2)
              (poolMem_pop id1 id2all pool' B v hpw hpm) hX
      · simp only [processRows, hfi, if_neg hmem] at hrun
        rw [dictSet_nil] at hrun
        simp only [List.nil_append] at hrun
        rw [processRows_acc idOf eqr flatKept rs [r] [(idOf r, idOf r)]
          (id1 ++ [idOf r]) pool htail (hsing (idOf r))] at hrun
        cases hX : processRows idOf eqr flatKept rs [] [] (id1 ++ [idOf r]) pool with
        | none => rw [hX] at hrun; exact absurd hrun (by simp)
        | some o =>
          rw [hX] at hrun
          obtain ⟨K', M', I', P'⟩ := o
          simp only [Option.map_some', Option.some.injEq, Prod.mk.injEq,
            List.singleton_append] at hrun
          obtain ⟨hK, hM, hI, hP⟩ := hrun
          subst hI
          have h1' : (id1 ++ [idOf r]).Nodup :=
            List.Nodup.append h1 (List.nodup_singleton (idOf r))
              (fun a ha hb => by
                rw [List.mem_singleton] at hb
                exact hmem (hb ▸ ha))
          exact ih (id1 ++ [idOf r]) pool K' M' I' P' h1' hsubtail htail hpw
            (poolMem_extend_own id1 id2all pool B (idOf r) ho hpm) hX

/-- The inner loop realises the specification's assignment policy: on a
successful run over an input whose identifiers are pairwise distinct,
with the canonical candidate pool, the code's kept rows, filtered map
and accumulated identifiers are those of `specProcess`. -/
theorem processRows_spec_eq (idOf : Row → Int) (eqr : Row → Row → Bool)
    (flatKept : List Row) (id2all : List Int) (B : Int)
    (rs : List Row) (id1 pool : List Int)
    (K : List Row) (M : List (Int × Int)) (I P : List Int)
    (hN : id2all.Nodup)
    (hsub : ∀ r ∈ rs, idOf r ∈ id2all)
    (hNodup : (rs.map idOf).Nodup)
    (hpw : pool.Pairwise (· < ·))
    (hpm : ∀ x, x ∈ pool ↔ 1 ≤ x ∧ x < B ∧ x ∉ id1 ∧ x ∉ id2all)
    (hrun : processRows idOf eqr flatKept rs [] [] id1 pool = some (K, M, I, P)) :
    specProcess idOf eqr flatKept id2all rs id1
      = (K, M.filter (fun p => decide (p.1 ≠ p.2)), I) := by
  induction rs generalizing id1 pool K M I P with
  | nil =>
    simp only [processRows, Option.some.injEq, Prod.mk.injEq] at hrun
    obtain ⟨hK, hM, hI, hP⟩ := hrun
    subst hK
    subst hM
    subst hI
    simp [specProcess]
  | cons r rs ih =>
    have hhead : idOf r ∉ rs.map idOf := by
      rw [List.map_cons, List.nodup_cons] at hNodup
      exact hNodup.1
    have htail : (rs.map idOf).Nodup := by
      rw [List.map_cons, List.nodup_cons] at hNodup
      exact hNodup.2
    have hsing : ∀ w : Int, ∀ p ∈ [(idOf r, w)], p.1 ∉ rs.map idOf := by
      intro w p hp
      rw [List.mem_singleton] at hp
      rw [hp]
      exact hhead
    have hsubtail : ∀ x ∈ rs, idOf x ∈ id2all :=
      fun x hx => hsub x (List.mem_cons_of_mem r hx)
    have ho : idOf r ∈ id2all := hsub r (List.mem_cons_self r rs)
    have hoerase : idOf r ∉ id2all.erase (idOf r) := by
      intro hmem
      exact ((List.Nodup.mem_erase_iff hN).mp hmem).1 rfl
    cases hfi : flatKept.findIdx? (fun x => eqr r x) with
    | some i =>
      cases hgi : id1[i]? with
      | none => simp [processRows, hfi, hgi] at hrun
      | some v =>
        simp only [processRows, hfi, hgi] at hrun
        rw [dictSet_nil,
          processRows_acc idOf eqr flatKept rs [] [(idOf r, v)] id1 pool htail
            (hsing v)] at hrun
        cases hX : processRows idOf eqr flatKept rs [] [] id1 pool with
        | none => rw [hX] at hrun; exact absurd hrun (by simp)
        | some o =>
          rw [hX] at hrun
          obtain ⟨K', M', I', P'⟩ := o
          simp only [Option.map_some', Option.some.injEq, Prod.mk.injEq,
            List.nil_append, List.singleton_append] at hrun
          obtain ⟨hK, hM, hI, hP⟩ := hrun
          subst hK
          subst hM
          subst hI
          have hspec := ih id1 pool K' M' I' P' hsubtail htail hpw hpm hX
          have hgd : id1.getD i 0 = v := by
            rw [List.getD_eq_getElem?_getD, hgi]
            rfl
          simp only [specProcess, hfi, hgd, hspec]
          by_cases hov : idOf r = v
          · simp [List.filter_cons, hov]
          · simp [List.filter_cons, hov]
    | none =>
      by_cases hmem : idOf r ∈ id1
      · cases pool with
        | nil => simp [processRows, hfi, hmem] at hrun
        | cons v pool' =>
          simp only [processRows, hfi, if_pos hmem] at hrun
          rw [dictSet_nil] at hrun
          simp only [List.nil_append] at hrun
          rw [processRows_acc idOf eqr flatKept rs [r] [(idOf r, v)]
            (id1 ++ [v]) pool' htail (hsing v)] at hrun
          cases hX : processRows idOf eqr flatKept rs [] [] (id1 ++ [v]) pool' with
          | none => rw [hX] at hrun; exact absurd hrun (by simp)
          | some o =>
            rw [hX] at hrun
            obtain ⟨K', M', I', P'⟩ := o
            simp only [Option.map_some', Option.some.injEq, Prod.mk.injEq,
              List.singleton_append] at hrun
            obtain ⟨hK, hM, hI, hP⟩ := hrun
            subst hK
            subst hM
            subst hI
            have hveq : v = smallestUnused (id1 ++ id2all) :=
              pool_head_eq_smallestUnused id1 id2all pool' B v hpw hpm
            have hvfresh : v ∉ id1 := ((hpm v).mp (List.mem_cons_self v pool')).2.2.1
            have hspec := ih (id1 ++ [v]) pool' K' M' I' P' hsubtail htail
              ((List.pairwise_cons.mp hpw).2)
              (poolMem_pop id1 id2all pool' B v hpw hpm) hX
            have hcond : ¬(idOf r ∉ id1 ∧ idOf r ∉ id2all.erase (idOf r)) := by
              intro hc
              exact hc.1 hmem
            simp only [specProcess, hfi, if_neg hcond, ← hveq, hspec]
            have hov : idOf r ≠ v := by
              intro he
              exact hvfresh (he ▸ hmem)
            simp [List.filter_cons, hov]
      · simp only [processRows, hfi, if_neg hmem] at hrun
        rw [dictSet_nil] at hrun
        simp only [List.nil_append] at hrun
        rw [processRows_acc idOf eqr flatKept rs [r] [(idOf r, idOf r)]
          (id1 ++ [idOf r]) pool htail (hsing (idOf r))] at hrun
        cases hX : processRows idOf eqr flatKept rs [] [] (id1 ++ [idOf r]) pool with
        | none => rw [hX] at hrun; exact absurd hrun (by simp)
        | some o =>
          rw [hX] at hrun
          obtain ⟨K', M', I', P'⟩ := o
          simp only [Option.map_some', Option.some.injEq, Prod.mk.injEq,
            List.singleton_append] at hrun
          obtain ⟨hK, hM, hI, hP⟩ := hrun
          subst hK
          subst hM
          subst hI
          have hspec := ih (id1 ++ [idOf r]) pool K' M' I' P' hsubtail htail hpw
            (poolMem_extend_own id1 id2all pool B (idOf r) ho hpm) hX
          have hcond : idOf r ∉ id1 ∧ idOf r ∉ id2all.erase (idOf r) :=
            ⟨hmem, hoerase⟩
          simp only [specProcess, hfi, if_pos hcond, hspec]
          simp [List.filter_cons]

theorem mapRowIds_eq (idOf : Row → Int) (m : List (Int × Int)) (rows : List Row) :
    mapRowIds idOf m rows
      = rows.map (fun r => (dictGet m (idOf r)).getD (idOf r)) := by
  rw [mapRowIds]
  by_cases hm : m = []
  · subst hm
    simp
  · rw [if_neg hm]

theorem seqRewrite_cons (p : Int × Int) (m : List (Int × Int)) (v : Int) :
    seqRewrite (p :: m) v = seqRewrite m (if v = p.1 then p.2 else v) := rfl

/-- Sequential in-place rewriting by the map entries lands in `S`
whenever all map values are in `S` and the start value is in `S` or is
one of the map keys. -/
theorem seqRewrite_mem (m : List (Int × Int)) (S : List Int) (v : Int)
    (hvals : ∀ p ∈ m, p.2 ∈ S)
    (hv : v ∈ S ∨ v ∈ dictKeys m) :
    seqRewrite m v ∈ S := by
  induction m generalizing v with
  | nil =>
    rcases hv with h | h
    · exact h
    · rw [dictKeys] at h
      simp at h
  | cons p m ih =>
    rw [seqRewrite_cons]
    by_cases hvp : v = p.1
    · rw [if_pos hvp]
      exact ih p.2 (fun q hq => hvals q (List.mem_cons_of_mem p hq))
        (Or.inl (hvals p (List.mem_cons_self p m)))
    · rw [if_neg hvp]
      apply ih v (fun q hq => hvals q (List.mem_cons_of_mem p hq))
      rcases hv with h | h
      · exact Or.inl h
      · rw [dictKeys_cons, List.mem_cons] at h
        rcases h with h | h
        · exact absurd h hvp
        · exact Or.inr h

theorem candidatePool_pairwise (id1 id2 : List Int) :
    (candidatePool id1 id2).Pairwise (· < ·) :=
  List.Pairwise.sublist (List.filter_sublist _)
    (intRange_pairwise 1 (id1.length + id2.length))

theorem candidatePool_mem (id1 id2 : List Int) :
    ∀ x, x ∈ candidatePool id1 id2 ↔
      1 ≤ x ∧ x < 1 + ((id1.length + id2.length : Nat) : Int)
        ∧ x ∉ id1 ∧ x ∉ id2 := by
  intro x
  rw [candidatePool, List.mem_filter, mem_intRange]
  constructor
  · rintro ⟨⟨a, b⟩, c⟩
    simp only [Bool.and_eq_true, decide_eq_true_eq] at c
    exact ⟨a, by omega, c.1, c.2⟩
  · rintro ⟨a, b, c, d⟩
    refine ⟨⟨a, by omega⟩, ?_⟩
    simp [c, d]

/-- Main invariant of the outer merge loop: on success, the merged
identifier column is duplicate-free, extends the incoming identifier
list, and cascading any processed input's filtered map lands every
identifier of that input inside the merged identifier column. -/
theorem mergeRowsOuter_main (idOf : Row → Int) (eqr : Row → Row → Bool)
    (rest : List (List Row)) (kept : List (List Row))
    (maps : List (List (Int × Int))) (id1 : List Int)
    (Kf : List (List Row)) (Mf : List (List (Int × Int)))
    (h1 : ∀ rs ∈ rest, (rs.map idOf).Nodup)
    (h2 : id1.Nodup)
    (h3 : mergedIdColumn idOf kept maps = id1)
    (h4 : kept.length = maps.length)
    (hrun : mergeRowsOuter idOf eqr rest kept maps id1 = some (Kf, Mf)) :
    (mergedIdColumn idOf Kf Mf).Nodup
    ∧ id1 <+: mergedIdColumn idOf Kf Mf
    ∧ ∃ Mnew, Mf = maps ++ Mnew
      ∧ List.Forall₂ (fun rs mj => ∀ v ∈ rs.map idOf,
          seqRewrite mj v ∈ mergedIdColumn idOf Kf Mf) rest Mnew := by
  induction rest generalizing kept maps id1 with
  | nil =>
    simp only [mergeRowsOuter, Option.some.injEq, Prod.mk.injEq] at hrun
    obtain ⟨hK, hM⟩ := hrun
    subst hK
    subst hM
    refine ⟨h3 ▸ h2, h3 ▸ List.prefix_refl _, [], by simp, List.Forall₂.nil⟩
  | cons rows2 rest ih =>
    have hN2 : (rows2.map idOf).Nodup := h1 rows2 (List.mem_cons_self rows2 rest)
    cases hX : processRows idOf eqr kept.flatten rows2 [] [] id1
        (candidatePool id1 (rows2.map idOf)) with
    | none =>
      simp only [mergeRowsOuter, hX] at hrun
      exact absurd hrun (by simp)
    | some o =>
      obtain ⟨K2, M2, I2, P2⟩ := o
      simp only [mergeRowsOuter, hX] at hrun
      obtain ⟨pKeys, pI, pVals, pSub⟩ :=
        processRows_main idOf eqr kept.flatten rows2 id1
          (candidatePool id1 (rows2.map idOf)) K2 M2 I2 P2 hN2 hX
      have pNodup : I2.Nodup :=
        processRows_nodup idOf eqr kept.flatten (rows2.map idOf)
          (1 + ((id1.length + (rows2.map idOf).length : Nat) : Int))
          rows2 id1 (candidatePool id1 (rows2.map idOf)) K2 M2 I2 P2 h2
          (fun r hr => List.mem_map_of_mem idOf hr) hN2
          (candidatePool_pairwise id1 (rows2.map idOf))
          (candidatePool_mem id1 (rows2.map idOf)) hX
      have hkeysN : (dictKeys M2).Nodup := by
        rw [pKeys]
        exact hN2
      have hmapsame :
          K2.map (fun r =>
              (dictGet (M2.filter (fun p => decide (p.1 ≠ p.2))) (idOf r)).getD (idOf r))
            = K2.map (fun r => (dictGet M2 (idOf r)).getD (idOf r)) :=
        List.map_congr_left (fun r _ => dictGet_filter_getD M2 (idOf r) hkeysN)
      have h3' : mergedIdColumn idOf (kept ++ [K2])
          (maps ++ [M2.filter (fun p => decide (p.1 ≠ p.2))]) = I2 := by
        rw [mergedIdColumn, List.zip_append h4, List.map_append,
          List.flatten_append]
        have hleft :
            ((kept.zip maps).map (fun p => mapRowIds idOf p.2 p.1)).flatten = id1 := h3
        rw [hleft]
        simp only [List.zip_cons_cons, List.zip_nil_right, List.map_cons,
          List.map_nil, List.flatten_cons, List.flatten_nil, List.append_nil]
        rw [mapRowIds_eq, hmapsame, pI]
      have h4' : (kept ++ [K2]).length
          = (maps ++ [M2.filter (fun p => decide (p.1 ≠ p.2))]).length := by
        simp [h4]
      obtain ⟨cNodup, cPre, Mnew, hMf, hFa⟩ :=
        ih (kept ++ [K2]) (maps ++ [M2.filter (fun p => decide (p.1 ≠ p.2))]) I2
          (fun rs hrs => h1 rs (List.mem_cons_of_mem rows2 hrs))
          pNodup h3' h4' hrun
      have hI2pre : id1 <+: I2 := ⟨_, pI.symm⟩
      refine ⟨cNodup, hI2pre.trans cPre, M2.filter (fun p => decide (p.1 ≠ p.2)) :: Mnew,
        by rw [hMf, List.append_assoc, List.singleton_append], ?_⟩
      refine List.Forall₂.cons ?_ hFa
      intro v hv
      apply seqRewrite_mem _ (mergedIdColumn idOf Kf Mf) v
      · intro p hp
        exact cPre.subset (pVals p (List.mem_of_mem_filter hp))
      · rw [← pKeys] at hv
        rw [dictKeys, List.mem_map] at hv
        obtain ⟨p, hpM, hpv⟩ := hv
        by_cases hpe : p.1 = p.2
        · left
          apply cPre.subset
          rw [← hpv, hpe]
          exact pVals p hpM
        · right
          rw [dictKeys, List.mem_map]
          exact ⟨p, List.mem_filter.mpr ⟨hpM, by simpa using hpe⟩, hpv⟩

theorem forall₂_getD {α β : Type} {R : α → β → Prop} {l1 : List α} {l2 : List β}
    (d1 : α) (d2 : β) (h : List.Forall₂ R l1 l2) (j : Nat) (hj : j < l1.length) :
    R (l1.getD j d1) (l2.getD j d2) := by
  induction h generalizing j with
  | nil => simp at hj
  | cons hr hrest ih =>
    cases j with
    | zero => simpa using hr
    | succ j =>
      simp only [List.getD_cons_succ]
      exact ih j (by simpa using hj)

/-! ### Claim theorems: the merge engine -/

/-- C2: merging tables of the same kind with an identifier column, where
each input's identifier column holds unique positive values, yields a
merged identifier column with no duplicate values. -/
theorem merged_id_column_nodup (idOf : Row → Int) (eqr : Row → Row → Bool)
    (first : List Row) (rest : List (List Row))
    (kept : List (List Row)) (maps : List (List (Int × Int)))
    (huniq : ∀ rs ∈ first :: rest, (rs.map idOf).Nodup)
    (hpos : ∀ rs ∈ first :: rest, ∀ r ∈ rs, 1 ≤ idOf r)
    (hrun : mergeFitsRowsId idOf eqr first rest = some (kept, maps)) :
    (mergedIdColumn idOf kept maps).Nodup :=
  (mergeRowsOuter_main idOf eqr rest [first] [[]] (first.map idOf) kept maps
    (fun rs hrs => huniq rs (List.mem_cons_of_mem first hrs))
    (huniq first (List.mem_cons_self first rest))
    (by simp [mergedIdColumn, mapRowIds]) rfl hrun).1

theorem merged_id_column_nodup_witness :
    (∀ rs ∈ ([[1, 2], [2, 3]] : List (List Int)), (rs.map (fun x => x)).Nodup)
    ∧ (mergedIdColumn (fun x : Int => x) [[1, 2], [3]] [[], []]).Nodup :=
  ⟨by decide,
    merged_id_column_nodup (fun x : Int => x) (fun a b => decide (a = b))
      [1, 2] [[2, 3]] [[1, 2], [3]] [[], []] (by decide) (by decide) (by decide)⟩

/-- C3 counterexample: the cascade of `_merge_helper` applies map entries
sequentially in place, so with the chained map `{1: 2, 2: 3}` — which a
real merge produces — a referrer's foreign key `1` is rewritten to `3`,
not to the map's value `2`: occurrences are not rewritten "by the map". -/
theorem cascade_not_map_application_cex :
    mergeFitsRowsId (fun p : Int × Int => p.1) (fun a b => decide (a.2 = b.2))
        [(1, 10), (2, 20)] [[(1, 20), (2, 30)]]
      = some ([[(1, 10), (2, 20)], [(2, 30)]], [[], [(1, 2), (2, 3)]])
    ∧ cascadeField [(1, 2), (2, 3)] [1] = [3]
    ∧ (dictGet [(1, 2), (2, 3)] 1).getD 1 = 2
    ∧ (3 : Int) ≠ 2 := by
  refine ⟨by decide, by decide, by decide, by decide⟩

/-- C3 amended: the cascade rewrites a referrer's foreign-key column by
applying the per-input map entries sequentially in place (so chained
entries compose); nevertheless, after a successful merge of inputs with
unique identifiers, every foreign-key value that was an identifier of
input `j`, rewritten through input `j`'s map, is an identifier of the
merged table's identifier column. -/
theorem cascade_referential_closure (idOf : Row → Int) (eqr : Row → Row → Bool)
    (first : List Row) (rest : List (List Row))
    (kept : List (List Row)) (maps : List (List (Int × Int)))
    (j : Nat) (v : Int)
    (huniq : ∀ rs ∈ first :: rest, (rs.map idOf).Nodup)
    (hrun : mergeFitsRowsId idOf eqr first rest = some (kept, maps))
    (hv : v ∈ ((first :: rest).getD j []).map idOf) :
    seqRewrite (maps.getD j []) v ∈ mergedIdColumn idOf kept maps := by
  obtain ⟨cN, cPre, Mnew, hMf, hFa⟩ :=
    mergeRowsOuter_main idOf eqr rest [first] [[]] (first.map idOf) kept maps
      (fun rs hrs => huniq rs (List.mem_cons_of_mem first hrs))
      (huniq first (List.mem_cons_self first rest))
      (by simp [mergedIdColumn, mapRowIds]) rfl hrun
  cases j with
  | zero =>
    have hm0 : maps.getD 0 [] = [] := by
      rw [hMf]
      rfl
    rw [hm0]
    have hsr : seqRewrite [] v = v := rfl
    rw [hsr]
    rw [List.getD_cons_zero] at hv
    exact cPre.subset hv
  | succ j =>
    rw [List.getD_cons_succ] at hv
    have hmj : maps.getD (j + 1) [] = Mnew.getD j [] := by
      rw [hMf]
      rfl
    rw [hmj]
    by_cases hj : j < rest.length
    · exact forall₂_getD [] [] hFa j hj v hv
    · rw [List.getD_eq_default _ _ (by omega)] at hv
      simp at hv

/-- C4: when the inner merge loop processes a subsequent input with
pairwise-distinct identifiers (with the candidate pool the code builds),
a successful run realises exactly the specified assignment policy: a
non-matching row is kept and keeps its original identifier when unused
in the accepted and to-be-accepted identifier space, otherwise receives
the smallest unused positive integer; the returned map contains exactly
the entries whose old and new identifiers differ. -/
theorem merge_id_assignment (idOf : Row → Int) (eqr : Row → Row → Bool)
    (flatKept : List Row) (rows2 : List Row) (id1 : List Int)
    (K : List Row) (M : List (Int × Int)) (I P : List Int)
    (huniq : (rows2.map idOf).Nodup)
    (hrun : processRows idOf eqr flatKept rows2 [] [] id1
        (candidatePool id1 (rows2.map idOf)) = some (K, M, I, P)) :
    specProcess idOf eqr flatKept (rows2.map idOf) rows2 id1
      = (K, M.filter (fun p => decide (p.1 ≠ p.2)), I) :=
  processRows_spec_eq idOf eqr flatKept (rows2.map idOf)
    (1 + ((id1.length + (rows2.map idOf).length : Nat) : Int)) rows2 id1
    (candidatePool id1 (rows2.map idOf)) K M I P huniq
    (fun r hr => List.mem_map_of_mem idOf hr) huniq
    (candidatePool_pairwise id1 (rows2.map idOf))
    (candidatePool_mem id1 (rows2.map idOf)) hrun

theorem merge_id_assignment_witness :
    (([(1 : Int)].map (fun x => x)).Nodup
    ∧ specProcess (fun x : Int => x) (fun _ _ => false) [1] ([1].map (fun x => x)) [1] [1]
        = ([1], [(1, 2)], [1, 2])) := by
  refine ⟨by decide, ?_⟩
  have h := merge_id_assignment (fun x : Int => x) (fun _ _ => false) [1] [1] [1]
    [1] [(1, 2)] [1, 2] [] (by decide) (by decide)
  exact h.trans (by decide)

/-- C9: merging without an identifier column returns a single empty map
regardless of the number of inputs, and only the first input's rows are
written into the merged table: all rows allocated for subsequent inputs
remain fill values. -/
theorem merge_no_id_drops_subsequent (fill : Row) (first : List Row)
    (rest : List (List Row)) :
    mergeHelperNoId fill (first :: rest)
      = (first ++ List.replicate ((rest.map List.length).sum) fill, [[]]) := by
  rw [mergeHelperNoId, mergeFitsRowsNoId]
  simp only [List.zip_cons_cons, List.zip_nil_right, List.map_cons, List.sum_cons]
  rw [assembleRows]
  simp only [List.foldl_cons, List.foldl_nil]
  rw [listWriteAt]
  simp only [List.take_zero, List.nil_append, Nat.zero_add, List.drop_replicate]
  have harith : first.length + (rest.map List.length).sum - first.length
      = (rest.map List.length).sum := by omega
  rw [harith]

/-! ### Lemmas for the cross-match resolver -/

theorem dictGet_none_iff {β : Type} (m : List (Int × β)) (k : Int) :
    dictGet m k = none ↔ ∀ p ∈ m, p.1 ≠ k := by
  rw [dictGet, Option.map_eq_none', List.find?_eq_none]
  constructor <;> intro h p hp <;> simpa using h p hp

theorem dictKeys_congr {β : Type} (m : List (Int × β)) (f : Int × β → Int × β)
    (h : ∀ q ∈ m, (f q).1 = q.1) : dictKeys (m.map f) = dictKeys m := by
  rw [dictKeys, dictKeys, List.map_map]
  exact List.map_congr_left (fun q hq => h q hq)

theorem dictSet_mem_keys {β : Type} (m : List (Int × β)) (k x : Int) (v : β) :
    x ∈ dictKeys (dictSet m k v) ↔ x ∈ dictKeys m ∨ x = k := by
  rw [dictSet]
  by_cases h : m.any (fun p => p.1 == k) = true
  · rw [if_pos h]
    have hk : k ∈ dictKeys m := by
      rw [List.any_eq_true] at h
      obtain ⟨p, hp, hpk⟩ := h
      rw [beq_iff_eq] at hpk
      rw [← hpk]
      exact List.mem_map_of_mem _ hp
    rw [dictKeys_congr _ _ (fun q _ => by by_cases hqk : q.1 = k <;> simp [hqk])]
    constructor
    · exact Or.inl
    · rintro (hx | rfl)
      · exact hx
      · exact hk
  · rw [if_neg h, dictKeys, List.map_append]
    simp [dictKeys]

theorem pyDict_keys {β : Type} (ps : List (Int × β)) (x : Int) :
    x ∈ dictKeys (pyDict ps) ↔ x ∈ ps.map (fun p => p.1) := by
  have haux : ∀ (qs : List (Int × β)) (m : List (Int × β)),
      x ∈ dictKeys (qs.foldl (fun acc p => dictSet acc p.1 p.2) m)
        ↔ x ∈ dictKeys m ∨ x ∈ qs.map (fun p => p.1) := by
    intro qs
    induction qs with
    | nil => simp
    | cons p qs ih =>
      intro m
      rw [List.foldl_cons, ih, dictSet_mem_keys, List.map_cons, List.mem_cons]
      tauto
  rw [pyDict, haux]
  simp [dictKeys]

theorem lookupAll_eq_none_iff {β : Type} (m : List (Int × β)) (l : List Int) :
    lookupAll m l = none ↔ ∃ i ∈ l, dictGet m i = none := by
  induction l with
  | nil => simp [lookupAll]
  | cons i is ih =>
    rw [lookupAll]
    cases hf : dictGet m i with
    | none => simp [hf]
    | some v =>
      cases hl : lookupAll m is with
      | none =>
        simp only [hl, Option.map_none']
        have ⟨j, hj, hjn⟩ := ih.mp hl
        exact iff_of_true trivial ⟨j, List.mem_cons_of_mem i hj, hjn⟩
      | some vs =>
        simp only [hl, Option.map_some']
        constructor
        · intro h
          exact absurd h (by simp)
        · rintro ⟨x, hx, hfx⟩
          rcases List.mem_cons.mp hx with rfl | hx'
          · rw [hf] at hfx
            exact absurd hfx (by simp)
          · exfalso
            have := ih.mpr ⟨x, hx', hfx⟩
            rw [hl] at this
            exact absurd this (by simp)

/-! ### Claim theorems: cross-match, column union, construction,
verification findings -/

/-- C7 counterexample: a dependent row whose foreign-key value (`2`) is
absent from the reference identifiers aborts the whole resolution with a
`KeyError` — no per-row no-reference marker is produced and the other
(resolvable) row is not resolved either. -/
theorem xmatch_broken_reference_cex :
    xmatch [1] [Val.i 10] [2, 1] = none
    ∧ xmatch [1] [Val.i 10] [1] = some [Val.i 10] := by
  refine ⟨by decide, by decide⟩

/-- C7 amended: resolution of a dependent table against a reference
table aborts (raises `KeyError`, modelled `none`) exactly when some
foreign-key value is absent from the reference identifier column;
dependent rows are only resolved when every foreign-key value is
present. -/
theorem xmatch_missing_key_aborts (refIdx : List Int) (refVals : List Val)
    (indices : List Int) (hlen : refIdx.length = refVals.length) :
    xmatch refIdx refVals indices = none ↔ ∃ i ∈ indices, i ∉ refIdx := by
  rw [xmatch, lookupAll_eq_none_iff]
  have hkey : ∀ i : Int, dictGet (pyDict (refIdx.zip refVals)) i = none ↔ i ∉ refIdx := by
    intro i
    rw [dictGet_none_iff]
    constructor
    · intro h hi
      have hik : i ∈ dictKeys (pyDict (refIdx.zip refVals)) := by
        rw [pyDict_keys, List.map_fst_zip refIdx refVals (le_of_eq hlen)]
        exact hi
      rw [dictKeys, List.mem_map] at hik
      obtain ⟨p, hp, hpi⟩ := hik
      exact h p hp hpi
    · intro h p hp hpi
      apply h
      have : p.1 ∈ dictKeys (pyDict (refIdx.zip refVals)) :=
        List.mem_map_of_mem _ hp
      rw [pyDict_keys, List.map_fst_zip refIdx refVals (le_of_eq hlen)] at this
      rw [← hpi]
      exact this
  constructor
  · rintro ⟨i, hi, hnone⟩
    exact ⟨i, hi, (hkey i).mp hnone⟩
  · rintro ⟨i, hi, hnotin⟩
    exact ⟨i, hi, (hkey i).mpr hnotin⟩

theorem xmatch_missing_key_aborts_witness :
    ([(1 : Int)].length = [Val.i 10].length)
    ∧ (xmatch [1] [Val.i 10] [2, 1] = none ↔ ∃ i ∈ ([2, 1] : List Int), i ∉ [(1 : Int)]) :=
  ⟨rfl, xmatch_missing_key_aborts [1] [Val.i 10] [2, 1] rfl⟩

/-- The column accumulated by `_merge_fits_columns` is the loop
variable `c` (table.py line 117), not the canonical `col` computed at
line 114, making the widening inside that helper dead code; the
canonical format is nevertheless restored downstream (see
`merge_columns_canonical`). -/
theorem mergeFitsColumns_appends_input :
    mergeFitsColumns [targetNameDesc] [[⟨"TARGET", Dtype.str 8⟩]]
      = [⟨"TARGET", Dtype.str 8⟩]
    ∧ minimalFitsColumn targetNameDesc = ⟨"TARGET", Dtype.str 16⟩ := by
  refine ⟨by decide, by decide⟩

/-- The dead `let` binding inside `_merge_fits_columns` does not affect
the step function. -/
theorem mergeStep_funext (oicolumns : List ColDesc) :
    (fun (st : List FitsCol × List String) (c : FitsCol) =>
      if (st.2).contains c.name then st
      else
        let _col := match oicolumns.find? (fun d => d.name == c.name) with
          | some coldesc => minimalFitsColumn coldesc
          | none => c
        (st.1 ++ [c], st.2 ++ [c.name]))
    = (fun (st : List FitsCol × List String) (c : FitsCol) =>
        if (st.2).contains c.name then st
        else (st.1 ++ [c], st.2 ++ [c.name])) :=
  rfl

/-- Inner loop of `_merge_fits_columns`: `colnames` tracks the names of
the accumulated columns, and equals the name-level first-appearance
fold. -/
theorem mergeColsFold (cs : List FitsCol) :
    ∀ (st : List FitsCol × List String), st.2 = st.1.map (fun c => c.name) →
      ((cs.foldl (fun st c => if (st.2).contains c.name then st
          else (st.1 ++ [c], st.2 ++ [c.name])) st).2
        = (cs.foldl (fun st c => if (st.2).contains c.name then st
            else (st.1 ++ [c], st.2 ++ [c.name])) st).1.map (fun c => c.name))
      ∧ (cs.foldl (fun st c => if (st.2).contains c.name then st
          else (st.1 ++ [c], st.2 ++ [c.name])) st).2
        = (cs.map (fun c => c.name)).foldl
            (fun acc n => if acc.contains n then acc else acc ++ [n]) st.2 := by
  induction cs with
  | nil =>
    intro st h
    exact ⟨h, rfl⟩
  | cons c cs ih =>
    intro st h
    simp only [List.foldl_cons, List.map_cons]
    by_cases hc : (st.2).contains c.name = true
    · rw [if_pos hc, if_pos hc]
      exact ih st h
    · rw [if_neg hc, if_neg hc]
      apply ih
      simp [h]

/-- Outer loop of `_merge_fits_columns` over the input HDUs. -/
theorem mergeColsFoldOuter (hdus : List (List FitsCol)) :
    ∀ (st : List FitsCol × List String), st.2 = st.1.map (fun c => c.name) →
      ((hdus.foldl (fun st hdu => hdu.foldl (fun st c =>
          if (st.2).contains c.name then st
          else (st.1 ++ [c], st.2 ++ [c.name])) st) st).2
        = (hdus.foldl (fun st hdu => hdu.foldl (fun st c =>
            if (st.2).contains c.name then st
            else (st.1 ++ [c], st.2 ++ [c.name])) st) st).1.map (fun c => c.name))
      ∧ (hdus.foldl (fun st hdu => hdu.foldl (fun st c =>
          if (st.2).contains c.name then st
          else (st.1 ++ [c], st.2 ++ [c.name])) st) st).2
        = (hdus.flatten.map (fun c => c.name)).foldl
            (fun acc n => if acc.contains n then acc else acc ++ [n]) st.2 := by
  induction hdus with
  | nil =>
    intro st h
    exact ⟨h, rfl⟩
  | cons hdu rest ih =>
    intro st h
    rw [List.foldl_cons, List.flatten_cons, List.map_append, List.foldl_append]
    obtain ⟨h1, h2⟩ := mergeColsFold hdu st h
    obtain ⟨h3, h4⟩ := ih (hdu.foldl (fun st c =>
      if (st.2).contains c.name then st
      else (st.1 ++ [c], st.2 ++ [c.name])) st) h1
    exact ⟨h3, by rw [h4, h2]⟩

theorem mergeFitsColumns_names (oicolumns : List ColDesc)
    (hdus : List (List FitsCol)) :
    (mergeFitsColumns oicolumns hdus).map (fun c => c.name)
      = firstAppearanceNames hdus := by
  unfold mergeFitsColumns firstAppearanceNames
  rw [mergeStep_funext oicolumns]
  obtain ⟨h1, h2⟩ := mergeColsFoldOuter hdus ([], []) rfl
  rw [← h1, h2]

theorem castFitsColumnsFun_name (colsdesc : List ColDesc) (col : FitsCol) :
    ((match colsdesc.find? (fun d => d.name == col.name) with
      | none => col
      | some d =>
        if d.dtype ≠ col.dtype then (⟨col.name, d.dtype⟩ : FitsCol) else col
      : FitsCol)).name = col.name := by
  cases hf : colsdesc.find? (fun d => d.name == col.name) with
  | none => rfl
  | some d =>
    dsimp only
    by_cases hdt : d.dtype ≠ col.dtype
    · rw [if_pos hdt]
    · rw [if_neg hdt]

theorem castFitsColumns_names (cols : List FitsCol) (colsdesc : List ColDesc) :
    (castFitsColumns cols colsdesc).map (fun c => c.name)
      = cols.map (fun c => c.name) := by
  rw [castFitsColumns, List.map_map]
  exact List.map_congr_left (fun c _ => castFitsColumnsFun_name colsdesc c)

/-- After `_cast_columns`, every column whose name matches a schema
descriptor carries the declared format. -/
theorem castFitsColumns_canonical (cols : List FitsCol) (colsdesc : List ColDesc) :
    ∀ c ∈ castFitsColumns cols colsdesc, ∀ d,
      colsdesc.find? (fun q => q.name == c.name) = some d →
      c.dtype = d.dtype := by
  intro c hc d hfd
  rw [castFitsColumns, List.mem_map] at hc
  obtain ⟨b, hb, hbe⟩ := hc
  have hname : c.name = b.name := by
    rw [← hbe]
    exact castFitsColumnsFun_name colsdesc b
  rw [hname] at hfd
  rw [← hbe]
  rw [hfd]
  dsimp only
  by_cases hdt : d.dtype ≠ b.dtype
  · rw [if_pos hdt]
  · rw [if_neg hdt]
    exact (not_not.mp hdt).symm

/-- C5: the merged column set is the union by name of the inputs'
columns in first-appearance order, and every column whose name matches
a schema-declared descriptor is emitted with the canonically declared
type: the widening computed inside `_merge_fits_columns` is discarded
(table.py line 117 appends `c`), but `_merge_helper` hands the union to
`cls.from_columns` (table.py 552), whose override rebuilds it through
`_cast_columns` against the registry (table.py 208-218) before the
merged table is created — so a narrower first-input column (`TARGET` as
an 8-character string against the declared 16 characters) is emitted at
the canonical width. -/
theorem merge_columns_canonical (oicolumns : List ColDesc)
    (hdus : List (List FitsCol)) :
    (mergeHelperColumns oicolumns hdus).map (fun c => c.name)
      = firstAppearanceNames hdus
    ∧ (∀ c ∈ mergeHelperColumns oicolumns hdus, ∀ d,
        oicolumns.find? (fun q => q.name == c.name) = some d →
        c.dtype = d.dtype)
    ∧ mergeHelperColumns [targetNameDesc]
        [[⟨"TARGET", Dtype.str 8⟩], [⟨"TARGET", Dtype.str 16⟩]]
      = [⟨"TARGET", Dtype.str 16⟩] := by
  refine ⟨?_, ?_, by decide⟩
  · rw [mergeHelperColumns, castFitsColumns_names]
    exact mergeFitsColumns_names oicolumns hdus
  · rw [mergeHelperColumns]
    exact castFitsColumns_canonical (mergeFitsColumns oicolumns hdus) oicolumns

/-- C6: the per-value check of `_verify` detects the violation (the
`CATEGORY` value `"XX"` fails `_is_category`) and builds a Finding, but
table.py line 378 never appends it, so the returned findings are empty;
and `_FluxHDU._verify` computes its findings and then falls off the end
of the function, returning `None` instead of the sequence. -/
theorem verify_drops_value_findings :
    invalidColumns [categoryDesc] invalidCategoryTable = ["CATEGORY"]
    ∧ (verifyTable [categoryDesc] VOption.warn invalidCategoryTable).2 = []
    ∧ fluxVerify [categoryDesc] VOption.warn invalidCategoryTable = none := by
  refine ⟨by decide, by decide, rfl⟩

/-- C1 counterexample: repair is not idempotent.  `CATEGORY` is declared
as a 3-character string with validator `_is_category` and default
`"SCI"`, but stored as a 2-character string holding the invalid value
`"XX"`.  The first repair casts the default to the *stored* type,
truncating it to `"SC"` (still invalid), then rebuilds the column at the
declared width; a second repair pass changes the table again, replacing
`"SC"` by `"SCI"`. -/
theorem repair_not_idempotent_cex :
    repairTable [categoryDesc] (repairTable [categoryDesc] narrowCategoryTable)
      ≠ repairTable [categoryDesc] narrowCategoryTable
    ∧ repairTable [categoryDesc] narrowCategoryTable
        = ⟨[⟨"CATEGORY", Dtype.str 3, "", [], [Val.s "SC"]⟩], 0⟩ := by
  refine ⟨by decide, by decide⟩

/-- C8 counterexample: the column `FOO_BAR` is absent from the schema
and does not carry the NS_ tag, yet verification does not flag it (and
repair does not rename it), because the code's criterion is "contains no
underscore", not "does not start with the NS_ tag". -/
theorem nonstd_underscore_not_flagged_cex :
    ¬ "FOO_BAR" ∈ schemaNames [categoryDesc]
    ∧ (∀ s : String, "FOO_BAR" ≠ "NS_" ++ s)
    ∧ (verifyTable [categoryDesc] VOption.warn underscoreNameTable).2 = []
    ∧ (verifyTable [categoryDesc] VOption.fix underscoreNameTable).1
        = underscoreNameTable := by
  refine ⟨by decide, ?_, by decide, by decide⟩
  intro s h
  have hd := congrArg String.data h
  rw [String.data_append] at hd
  have : "FOO_BAR".data.head? = ("NS_".data ++ s.data).head? := by rw [hd]
  simp at this

/-- C10: `from_data` raises `AttributeError` (through the misspelled
`fcols.appen` at table.py line 667) exactly when some supplied column's
upper-cased name is not schema-declared, so construction succeeds only
when every supplied column is a schema column. -/
theorem from_data_nonschema_raises (schema : List ColDesc)
    (columns : List (String × Val)) :
    (∃ e, fromDataColumns schema columns = Except.error e)
      ↔ ∃ p ∈ columns, p.1.toUpper ∉ schemaNames schema := by
  rw [fromDataColumns]
  cases hl : (columns.map (fun p => (p.1.toUpper, p.2))).filter
      (fun p => !((schemaNames schema).contains p.1)) with
  | nil =>
    simp only [hl]
    constructor
    · rintro ⟨e, he⟩
      exact absurd he (by simp)
    · rintro ⟨p, hp, hnot⟩
      exfalso
      have hmem : ((p.1.toUpper, p.2) : String × Val)
          ∈ (columns.map (fun p => (p.1.toUpper, p.2))).filter
            (fun p => !((schemaNames schema).contains p.1)) := by
        rw [List.mem_filter]
        refine ⟨List.mem_map_of_mem _ hp, ?_⟩
        simp only [Bool.not_eq_true']
        rw [List.contains_eq_any_beq, List.any_eq_false]
        intro n hn he
        rw [beq_iff_eq] at he
        exact hnot (he ▸ hn)
      rw [hl] at hmem
      exact absurd hmem (List.not_mem_nil _)
  | cons q qs =>
    simp only [hl]
    constructor
    · intro _
      have hq : q ∈ (columns.map (fun p => (p.1.toUpper, p.2))).filter
          (fun p => !((schemaNames schema).contains p.1)) := by
        rw [hl]
        exact List.mem_cons_self q qs
      rw [List.mem_filter] at hq
      obtain ⟨hqm, hqf⟩ := hq
      rw [List.mem_map] at hqm
      obtain ⟨p, hp, hpq⟩ := hqm
      refine ⟨p, hp, ?_⟩
      intro hmem
      rw [← hpq] at hqf
      simp only [Bool.not_eq_true'] at hqf
      rw [List.contains_eq_any_beq, List.any_eq_false] at hqf
      have := hqf _ hmem
      simp at this
    · intro _
      exact ⟨"AttributeError: list object has no attribute appen", rfl⟩

/-! ### Lemmas for the verification engine -/

theorem lookupColumn_updateColumn_ne (cols : List Column) (n x : String)
    (f : Column → Column) (hpres : ∀ c, (f c).name = c.name) (hne : x ≠ n) :
    lookupColumn (updateColumn cols n f) x = lookupColumn cols x := by
  induction cols with
  | nil => rfl
  | cons c cs ih =>
    rw [updateColumn]
    by_cases hc : c.name = n
    · rw [if_pos hc]
      have h1 : ((f c).name == x) = false := by
        rw [hpres c, hc, beq_eq_false_iff_ne]
        exact fun h => hne h.symm
      have h2 : (c.name == x) = false := by
        rw [hc, beq_eq_false_iff_ne]
        exact fun h => hne h.symm
      rw [lookupColumn, lookupColumn, List.find?_cons_of_neg _ (by simp [h1]),
        List.find?_cons_of_neg _ (by simp [h2])]
    · rw [if_neg hc]
      by_cases hcx : c.name = x
      · rw [lookupColumn, lookupColumn, List.find?_cons_of_pos _ (by simp [hcx]),
          List.find?_cons_of_pos _ (by simp [hcx])]
      · rw [lookupColumn, lookupColumn, List.find?_cons_of_neg _ (by simp [hcx]),
          List.find?_cons_of_neg _ (by simp [hcx])]
        exact ih

theorem lookupColumn_updateColumn_self (cols : List Column) (n : String)
    (f : Column → Column) (hpres : ∀ c, (f c).name = c.name) :
    lookupColumn (updateColumn cols n f) n = (lookupColumn cols n).map f := by
  induction cols with
  | nil => rfl
  | cons c cs ih =>
    rw [updateColumn]
    by_cases hc : c.name = n
    · rw [if_pos hc]
      rw [lookupColumn, lookupColumn, List.find?_cons_of_pos _ (by simp [hpres c, hc]),
        List.find?_cons_of_pos _ (by simp [hc])]
      rfl
    · rw [if_neg hc]
      rw [lookupColumn, lookupColumn, List.find?_cons_of_neg _ (by simp [hc]),
        List.find?_cons_of_neg _ (by simp [hc])]
      exact ih

theorem updateColumn_names (cols : List Column) (n : String) (f : Column → Column)
    (hpres : ∀ c, (f c).name = c.name) :
    (updateColumn cols n f).map (fun c => c.name) = cols.map (fun c => c.name) := by
  induction cols with
  | nil => rfl
  | cons c cs ih =>
    rw [updateColumn]
    by_cases hc : c.name = n
    · rw [if_pos hc]
      simp [hpres c]
    · rw [if_neg hc]
      simp [ih]

theorem checkOiColumn_no_column (opt : VOption) (st : Table × List Finding × List String)
    (d : ColDesc) (h : lookupColumn st.1.columns d.name = none) :
    checkOiColumn opt st d = st := by
  rw [checkOiColumn, h]

theorem checkOiColumn_errs_eq (opt : VOption) (t : Table) (errs : List Finding)
    (casts : List String) (d : ColDesc) (col : Column)
    (h : lookupColumn t.columns d.name = some col) :
    (checkOiColumn opt (t, errs, casts) d).2.1
      = (if decide (resolveShape t.nwaves d.shape ≠ col.shape) = true then
          (if decide (col.unit ≠ d.unit) = true then
            (if decide (col.dtype ≠ d.dtype) = true then
              errs ++ [Finding.typeMismatch d.name] else errs)
            ++ [Finding.unitMismatch d.name]
          else
            (if decide (col.dtype ≠ d.dtype) = true then
              errs ++ [Finding.typeMismatch d.name] else errs))
          ++ [Finding.shapeMismatch d.name]
        else
          (if decide (col.unit ≠ d.unit) = true then
            (if decide (col.dtype ≠ d.dtype) = true then
              errs ++ [Finding.typeMismatch d.name] else errs)
            ++ [Finding.unitMismatch d.name]
          else
            (if decide (col.dtype ≠ d.dtype) = true then
              errs ++ [Finding.typeMismatch d.name] else errs))) := by
  rw [checkOiColumn, h]
  cases hdt : d.test with
  | none => rfl
  | some test =>
    simp only [hdt]
    by_cases hinv : (col.values.any (fun v => ! test v)) = true
    · rw [if_pos hinv]
      cases hdf : d.default with
      | none => rfl
      | some dv =>
        simp only [hdf]
        cases hcv : castVal col.dtype dv with
        | none => rfl
        | some dcast => simp only [hcv]
    · rw [if_neg hinv]

theorem checkOiColumn_casts_eq (opt : VOption) (t : Table) (errs : List Finding)
    (casts : List String) (d : ColDesc) (col : Column)
    (h : lookupColumn t.columns d.name = some col) :
    (checkOiColumn opt (t, errs, casts) d).2.2
      = (if decide (col.dtype ≠ d.dtype) = true then casts ++ [d.name] else casts) := by
  rw [checkOiColumn, h]
  cases hdt : d.test with
  | none => rfl
  | some test =>
    simp only [hdt]
    by_cases hinv : (col.values.any (fun v => ! test v)) = true
    · rw [if_pos hinv]
      cases hdf : d.default with
      | none => rfl
      | some dv =>
        simp only [hdf]
        cases hcv : castVal col.dtype dv with
        | none => rfl
        | some dcast => simp only [hcv]
    · rw [if_neg hinv]

theorem checkOiColumn_warn_table (t : Table) (errs : List Finding)
    (casts : List String) (d : ColDesc) :
    (checkOiColumn VOption.warn (t, errs, casts) d).1 = t := by
  rw [checkOiColumn]
  cases hl : lookupColumn t.columns d.name with
  | none => rfl
  | some col =>
    simp only [show decide (VOption.warn = VOption.fix) = false from rfl,
      Bool.and_false, Bool.false_eq_true, if_false]
    cases hdt : d.test with
    | none => rfl
    | some test =>
      simp only [hdt]
      by_cases hinv : (col.values.any (fun v => ! test v)) = true
      · rw [if_pos hinv]
        cases hdf : d.default with
        | none => rfl
        | some dv =>
          simp only [hdf]
          cases hcv : castVal col.dtype dv with
          | none => rfl
          | some dcast =>
            simp only [hcv, show decide (VOption.warn = VOption.fix) = false from rfl,
              Bool.false_eq_true, if_false]
      · rw [if_neg hinv]

theorem table_update_facts (t : Table) (n : String) (g : Column → Column)
    (col : Column) (h : lookupColumn t.columns n = some col)
    (hg : ∀ c : Column, (g c).name = c.name) :
    columnNames { t with columns := updateColumn t.columns n g } = columnNames t
    ∧ ({ t with columns := updateColumn t.columns n g } : Table).nwaves = t.nwaves
    ∧ (∀ x, x ≠ n →
        lookupColumn (updateColumn t.columns n g) x = lookupColumn t.columns x)
    ∧ lookupColumn (updateColumn t.columns n g) n = some (g col) := by
  refine ⟨?_, rfl, ?_, ?_⟩
  · simp only [columnNames]
    exact updateColumn_names t.columns n g hg
  · intro x hx
    exact lookupColumn_updateColumn_ne t.columns n x g hg hx
  · rw [lookupColumn_updateColumn_self t.columns n g hg, h]
    rfl

theorem checkOiColumn_table_facts (opt : VOption) (t : Table) (errs : List Finding)
    (casts : List String) (d : ColDesc) (col : Column)
    (h : lookupColumn t.columns d.name = some col) :
    columnNames (checkOiColumn opt (t, errs, casts) d).1 = columnNames t
    ∧ (checkOiColumn opt (t, errs, casts) d).1.nwaves = t.nwaves
    ∧ (∀ x, x ≠ d.name →
        lookupColumn (checkOiColumn opt (t, errs, casts) d).1.columns x
          = lookupColumn t.columns x)
    ∧ ∃ col', lookupColumn (checkOiColumn opt (t, errs, casts) d).1.columns d.name
          = some col'
        ∧ col'.name = col.name ∧ col'.dtype = col.dtype ∧ col'.shape = col.shape
        ∧ (opt = VOption.fix → col'.unit = d.unit)
        ∧ (col.unit = d.unit → col'.unit = col.unit)
        ∧ (∀ v ∈ col'.values, v ∈ col.values
            ∨ ∃ dv, d.default = some dv ∧ castVal col.dtype dv = some v) := by
  rw [checkOiColumn, h]
  cases hB1 : (decide (col.unit ≠ d.unit) && decide (opt = VOption.fix)) with
  | true =>
    have hfix : opt = VOption.fix := by
      rw [Bool.and_eq_true] at hB1
      exact of_decide_eq_true hB1.2
    obtain ⟨f1, f2, f3, f4⟩ := table_update_facts t d.name
      (fun c => { c with unit := d.unit }) col h (fun c => rfl)
    simp only [hB1, eq_self_iff_true, if_true]
    cases hdt : d.test with
    | none =>
      exact ⟨f1, f2, f3, { col with unit := d.unit }, f4, rfl, rfl, rfl,
        fun _ => rfl, fun he => he.symm, fun v hv => Or.inl hv⟩
    | some test =>
      simp only [hdt]
      by_cases hinv : (col.values.any (fun v => ! test v)) = true
      · rw [if_pos hinv]
        cases hdf : d.default with
        | none =>
          exact ⟨f1, f2, f3, { col with unit := d.unit }, f4, rfl, rfl, rfl,
            fun _ => rfl, fun he => he.symm, fun v hv => Or.inl hv⟩
        | some dv =>
          simp only [hdf]
          cases hcv : castVal col.dtype dv with
          | none =>
            exact ⟨f1, f2, f3, { col with unit := d.unit }, f4, rfl, rfl, rfl,
              fun _ => rfl, fun he => he.symm, fun v hv => Or.inl hv⟩
          | some dcast =>
            simp only [hcv, hfix]
            rw [if_pos (by rfl)]
            obtain ⟨g1, g2, g3, g4⟩ := table_update_facts
              ⟨updateColumn t.columns d.name (fun c => { c with unit := d.unit }),
                t.nwaves⟩
              d.name
              (fun c => { c with values := c.values.map (fun v => if test v then v else dcast) })
              { col with unit := d.unit } f4 (fun c => rfl)
            refine ⟨g1.trans f1, g2.trans f2, ?_, _, g4, rfl, rfl, rfl,
              fun _ => rfl, fun he => he.symm, ?_⟩
            · intro x hx
              rw [g3 x hx]
              exact f3 x hx
            · intro v hv
              simp only [List.mem_map] at hv
              obtain ⟨w, hw, hwv⟩ := hv
              by_cases htw : test w = true
              · rw [if_pos htw] at hwv
                exact Or.inl (hwv ▸ hw)
              · rw [if_neg htw] at hwv
                exact Or.inr ⟨dv, rfl, hwv ▸ hcv⟩
      · rw [if_neg hinv]
        exact ⟨f1, f2, f3, { col with unit := d.unit }, f4, rfl, rfl, rfl,
          fun _ => rfl, fun he => he.symm, fun v hv => Or.inl hv⟩
  | false =>
    have himp : opt = VOption.fix → col.unit = d.unit := by
      intro hfix
      rw [Bool.and_eq_false_iff] at hB1
      rcases hB1 with hB1 | hB1
      · have := of_decide_eq_false hB1
        exact not_not.mp this
      · exact absurd (decide_eq_true_eq.mpr hfix) (by rw [hB1]; exact Bool.false_ne_true)
    simp only [hB1, Bool.false_eq_true, if_false]
    cases hdt : d.test with
    | none =>
      exact ⟨rfl, rfl, fun x _ => rfl, col, h, rfl, rfl, rfl,
        fun hfix => (himp hfix) ▸ rfl, fun _ => rfl, fun v hv => Or.inl hv⟩
    | some test =>
      simp only [hdt]
      by_cases hinv : (col.values.any (fun v => ! test v)) = true
      · rw [if_pos hinv]
        cases hdf : d.default with
        | none =>
          exact ⟨rfl, rfl, fun x _ => rfl, col, h, rfl, rfl, rfl,
            fun hfix => (himp hfix) ▸ rfl, fun _ => rfl, fun v hv => Or.inl hv⟩
        | some dv =>
          simp only [hdf]
          cases hcv : castVal col.dtype dv with
          | none =>
            exact ⟨rfl, rfl, fun x _ => rfl, col, h, rfl, rfl, rfl,
              fun hfix => (himp hfix) ▸ rfl, fun _ => rfl, fun v hv => Or.inl hv⟩
          | some dcast =>
            simp only [hcv]
            by_cases hfix2 : (decide (opt = VOption.fix)) = true
            · rw [if_pos hfix2]
              have hfix := of_decide_eq_true hfix2
              obtain ⟨g1, g2, g3, g4⟩ := table_update_facts t d.name
                (fun c => { c with values := c.values.map (fun v => if test v then v else dcast) })
                col h (fun c => rfl)
              refine ⟨g1, g2, g3, _, g4, rfl, rfl, rfl, ?_, fun _ => rfl, ?_⟩
              · intro hf
                exact himp hf
              · intro v hv
                simp only [List.mem_map] at hv
                obtain ⟨w, hw, hwv⟩ := hv
                by_cases htw : test w = true
                · rw [if_pos htw] at hwv
                  exact Or.inl (hwv ▸ hw)
                · rw [if_neg htw] at hwv
                  exact Or.inr ⟨dv, rfl, hwv ▸ hcv⟩
            · rw [if_neg hfix2]
              exact ⟨rfl, rfl, fun x _ => rfl, col, h, rfl, rfl, rfl,
                fun hfix => (himp hfix) ▸ rfl, fun _ => rfl, fun v hv => Or.inl hv⟩
      · rw [if_neg hinv]
        exact ⟨rfl, rfl, fun x _ => rfl, col, h, rfl, rfl, rfl,
          fun hfix => (himp hfix) ▸ rfl, fun _ => rfl, fun v hv => Or.inl hv⟩

/-- When the looked-up column already agrees with the descriptor on type
and unit and all its values pass the declared validator, the check leaves
the table untouched. -/
theorem checkOiColumn_nomut (opt : VOption) (t : Table) (errs : List Finding)
    (casts : List String) (d : ColDesc) (col : Column)
    (h : lookupColumn t.columns d.name = some col)
    (h2 : col.unit = d.unit)
    (h3 : ∀ test, d.test = some test → ∀ v ∈ col.values, test v = true) :
    (checkOiColumn opt (t, errs, casts) d).1 = t := by
  rw [checkOiColumn, h]
  have hb1 : (decide (col.unit ≠ d.unit) && decide (opt = VOption.fix)) = false := by
    simp [h2]
  simp only [hb1]
  cases hdt : d.test with
  | none => rfl
  | some test =>
    simp only [hdt]
    have hinv : (col.values.any (fun v => ! test v)) = false := by
      rw [List.any_eq_false]
      intro v hv
      simp [h3 test hdt v hv]
    simp only [hinv]
    rfl

theorem lookupColumn_none_iff (cols : List Column) (x : String) :
    lookupColumn cols x = none ↔ ∀ c ∈ cols, c.name ≠ x := by
  rw [lookupColumn, List.find?_eq_none]
  constructor <;> intro h c hc <;> simpa using h c hc

theorem lookupColumn_name (cols : List Column) (x : String) (c : Column)
    (h : lookupColumn cols x = some c) : c.name = x := by
  have := List.find?_some h
  simpa using this

theorem lookupColumn_mem (cols : List Column) (x : String) (c : Column)
    (h : lookupColumn cols x = some c) : c ∈ cols :=
  List.mem_of_find?_eq_some h

theorem lookupColumn_map (cols : List Column) (x : String) (g : Column → Column)
    (hg : ∀ c, (g c).name = c.name) :
    lookupColumn (cols.map g) x = (lookupColumn cols x).map g := by
  induction cols with
  | nil => rfl
  | cons c cs ih =>
    rw [List.map_cons]
    by_cases hc : c.name = x
    · rw [lookupColumn, List.find?_cons_of_pos _ (by simp [hg c, hc]),
        lookupColumn, List.find?_cons_of_pos _ (by simp [hc])]
      rfl
    · rw [lookupColumn, List.find?_cons_of_neg _ (by simp [hg c, hc]),
        lookupColumn, List.find?_cons_of_neg _ (by simp [hc])]
      exact ih

theorem map_names_of_pres (cols : List Column) (g : Column → Column)
    (hg : ∀ c, (g c).name = c.name) :
    (cols.map g).map (fun c => c.name) = cols.map (fun c => c.name) := by
  rw [List.map_map]
  exact List.map_congr_left (fun c _ => hg c)

theorem mem_ite_singleton {α : Type} (P : Prop) [Decidable P] (x e : α)
    (h : e ∈ (if P then [x] else [])) : e = x := by
  by_cases hp : P
  · rw [if_pos hp] at h
    exact List.mem_singleton.mp h
  · rw [if_neg hp] at h
    exact absurd h (List.not_mem_nil e)

theorem checkOiColumn_errs_facts (opt : VOption) (t : Table) (errs : List Finding)
    (casts : List String) (d : ColDesc) (col : Column)
    (h : lookupColumn t.columns d.name = some col) :
    ∃ ee, (checkOiColumn opt (t, errs, casts) d).2.1 = errs ++ ee
      ∧ ∀ e ∈ ee, e = Finding.typeMismatch d.name ∨ e = Finding.unitMismatch d.name
          ∨ e = Finding.shapeMismatch d.name := by
  rw [checkOiColumn_errs_eq opt t errs casts d col h]
  refine ⟨(if decide (col.dtype ≠ d.dtype) = true then [Finding.typeMismatch d.name] else [])
    ++ (if decide (col.unit ≠ d.unit) = true then [Finding.unitMismatch d.name] else [])
    ++ (if decide (resolveShape t.nwaves d.shape ≠ col.shape) = true then
        [Finding.shapeMismatch d.name] else []), ?_, ?_⟩
  · by_cases h1 : decide (col.dtype ≠ d.dtype) = true <;>
      by_cases h2 : decide (col.unit ≠ d.unit) = true <;>
        by_cases h3 : decide (resolveShape t.nwaves d.shape ≠ col.shape) = true <;>
          simp [h1, h2, h3]
  · intro e he
    rcases List.mem_append.mp he with h12 | h3
    · rcases List.mem_append.mp h12 with h1 | h2
      · exact Or.inl (mem_ite_singleton _ _ _ h1)
      · exact Or.inr (Or.inl (mem_ite_singleton _ _ _ h2))
    · exact Or.inr (Or.inr (mem_ite_singleton _ _ _ h3))

theorem checkOiColumn_errs_good (opt : VOption) (t : Table) (errs : List Finding)
    (casts : List String) (d : ColDesc) (col : Column)
    (h : lookupColumn t.columns d.name = some col)
    (h1 : col.dtype = d.dtype) (h2 : col.unit = d.unit) :
    ∃ ee, (checkOiColumn opt (t, errs, casts) d).2.1 = errs ++ ee
      ∧ ∀ e ∈ ee, e = Finding.shapeMismatch d.name := by
  rw [checkOiColumn_errs_eq opt t errs casts d col h]
  have hd1 : decide (col.dtype ≠ d.dtype) = false := by simp [h1]
  have hd2 : decide (col.unit ≠ d.unit) = false := by simp [h2]
  refine ⟨(if decide (resolveShape t.nwaves d.shape ≠ col.shape) = true then
      [Finding.shapeMismatch d.name] else []), ?_, ?_⟩
  · by_cases h3 : decide (resolveShape t.nwaves d.shape ≠ col.shape) = true <;>
      simp [hd1, hd2, h3]
  · intro e he
    exact mem_ite_singleton _ _ _ he

theorem checkOiColumn_casts_unchanged (opt : VOption) (t : Table)
    (errs : List Finding) (casts : List String) (d : ColDesc) (col : Column)
    (h : lookupColumn t.columns d.name = some col) (h1 : col.dtype = d.dtype) :
    (checkOiColumn opt (t, errs, casts) d).2.2 = casts := by
  rw [checkOiColumn_casts_eq opt t errs casts d col h]
  simp [h1]

theorem foldCheck_basic (opt : VOption) (schema : List ColDesc) :
    ∀ (t : Table) (errs : List Finding) (casts : List String),
    columnNames (schema.foldl (checkOiColumn opt) (t, errs, casts)).1 = columnNames t
    ∧ (schema.foldl (checkOiColumn opt) (t, errs, casts)).1.nwaves = t.nwaves
    ∧ (∃ ee, (schema.foldl (checkOiColumn opt) (t, errs, casts)).2.1 = errs ++ ee
        ∧ ∀ e ∈ ee, (∃ n, e = Finding.typeMismatch n) ∨ (∃ n, e = Finding.unitMismatch n)
            ∨ (∃ n, e = Finding.shapeMismatch n))
    ∧ (∃ ce, (schema.foldl (checkOiColumn opt) (t, errs, casts)).2.2 = casts ++ ce)
    ∧ (opt = VOption.warn → (schema.foldl (checkOiColumn opt) (t, errs, casts)).1 = t) := by
  induction schema with
  | nil =>
    intro t errs casts
    exact ⟨rfl, rfl, ⟨[], by simp, by simp⟩, ⟨[], by simp⟩, fun _ => rfl⟩
  | cons d rest ih =>
    intro t errs casts
    rw [List.foldl_cons]
    cases hl : lookupColumn t.columns d.name with
    | none =>
      rw [checkOiColumn_no_column opt (t, errs, casts) d hl]
      exact ih t errs casts
    | some col =>
      obtain ⟨n1, n2, ⟨ee2, he2, hclass2⟩, ⟨ce2, hc2⟩, hw2⟩ :=
        ih (checkOiColumn opt (t, errs, casts) d).1
          (checkOiColumn opt (t, errs, casts) d).2.1
          (checkOiColumn opt (t, errs, casts) d).2.2
      obtain ⟨s1, s2, s3, scol⟩ := checkOiColumn_table_facts opt t errs casts d col hl
      obtain ⟨ee1, he1, hclass1⟩ := checkOiColumn_errs_facts opt t errs casts d col hl
      have hcasts1 := checkOiColumn_casts_eq opt t errs casts d col hl
      refine ⟨n1.trans s1, n2.trans s2, ?_, ?_, ?_⟩
      · refine ⟨ee1 ++ ee2, ?_, ?_⟩
        · rw [he2, he1, List.append_assoc]
        · intro e he
          rcases List.mem_append.mp he with h1 | h2
          · rcases hclass1 e h1 with h | h | h
            · exact Or.inl ⟨d.name, h⟩
            · exact Or.inr (Or.inl ⟨d.name, h⟩)
            · exact Or.inr (Or.inr ⟨d.name, h⟩)
          · exact hclass2 e h2
      · by_cases htb : decide (col.dtype ≠ d.dtype) = true
        · rw [if_pos htb] at hcasts1
          exact ⟨[d.name] ++ ce2, by rw [hc2, hcasts1, List.append_assoc]⟩
        · rw [if_neg htb] at hcasts1
          exact ⟨ce2, by rw [hc2, hcasts1]⟩
      · intro hw
        rw [hw2 hw]
        subst hw
        exact checkOiColumn_warn_table t errs casts d

theorem foldCheck_frame (opt : VOption) (rest : List ColDesc) :
    ∀ (t : Table) (errs : List Finding) (casts : List String) (x : String),
      (∀ d ∈ rest, d.name ≠ x) →
      lookupColumn (rest.foldl (checkOiColumn opt) (t, errs, casts)).1.columns x
        = lookupColumn t.columns x := by
  induction rest with
  | nil => intro t errs casts x _; rfl
  | cons d rest ih =>
    intro t errs casts x hx
    rw [List.foldl_cons]
    cases hl : lookupColumn t.columns d.name with
    | none =>
      rw [checkOiColumn_no_column opt (t, errs, casts) d hl]
      exact ih t errs casts x (fun d' hd' => hx d' (List.mem_cons_of_mem d hd'))
    | some col =>
      obtain ⟨s1, s2, s3, scol⟩ := checkOiColumn_table_facts opt t errs casts d col hl
      rw [ih (checkOiColumn opt (t, errs, casts) d).1
        (checkOiColumn opt (t, errs, casts) d).2.1
        (checkOiColumn opt (t, errs, casts) d).2.2 x
        (fun d' hd' => hx d' (List.mem_cons_of_mem d hd'))]
      exact s3 x (fun he => hx d (List.mem_cons_self d rest) he.symm)

/-- Through the repair-mode descriptor loop, with pairwise-distinct
schema names, every schema column present in the final table keeps its
original name, dtype and shape, has its unit set to the declared one,
and every value is an original value or the default cast to the stored
dtype. -/
theorem foldCheck_good (rest : List ColDesc) :
    ∀ (t : Table) (errs : List Finding) (casts : List String),
      (schemaNames rest).Nodup →
      ∀ d ∈ rest, ∀ c',
        lookupColumn
            (rest.foldl (checkOiColumn VOption.fix) (t, errs, casts)).1.columns d.name
          = some c' →
        ∃ colOrig, lookupColumn t.columns d.name = some colOrig
          ∧ c'.name = colOrig.name ∧ c'.dtype = colOrig.dtype ∧ c'.shape = colOrig.shape
          ∧ c'.unit = d.unit
          ∧ (∀ v ∈ c'.values, v ∈ colOrig.values
              ∨ ∃ dv, d.default = some dv ∧ castVal colOrig.dtype dv = some v) := by
  induction rest with
  | nil =>
    intro t errs casts _ d hd
    exact absurd hd (List.not_mem_nil d)
  | cons d0 rest ih =>
    intro t errs casts hnd d hd c' hc'
    rw [schemaNames, List.map_cons, List.nodup_cons] at hnd
    have hne_rest : ∀ d' ∈ rest, d'.name ≠ d0.name := by
      intro d' hd' he
      exact hnd.1 (he ▸ List.mem_map_of_mem (fun d => d.name) hd')
    rw [List.foldl_cons] at hc'
    rcases List.mem_cons.mp hd with rfl | hdr
    · cases hl : lookupColumn t.columns d.name with
      | none =>
        rw [checkOiColumn_no_column _ _ _ hl,
          foldCheck_frame VOption.fix rest t errs casts d.name hne_rest, hl] at hc'
        exact absurd hc' (by simp)
      | some col =>
        obtain ⟨s1, s2, s3, col1, hlook1, hnm, hdt, hsh, huf, _, hvals⟩ :=
          checkOiColumn_table_facts VOption.fix t errs casts d col hl
        rw [foldCheck_frame VOption.fix rest _ _ _ d.name hne_rest, hlook1] at hc'
        have hc1 : col1 = c' := by
          injection hc'
        subst hc1
        exact ⟨col, rfl, hnm, hdt, hsh, huf rfl, hvals⟩
    · have hdname : d.name ≠ d0.name :=
        hne_rest d hdr
      cases hl : lookupColumn t.columns d0.name with
      | none =>
        rw [checkOiColumn_no_column _ _ _ hl] at hc'
        exact ih t errs casts hnd.2 d hdr c' hc'
      | some col0 =>
        obtain ⟨s1, s2, s3, _⟩ :=
          checkOiColumn_table_facts VOption.fix t errs casts d0 col0 hl
        obtain ⟨colOrig, hOrig, hrel⟩ :=
          ih (checkOiColumn VOption.fix (t, errs, casts) d0).1
            (checkOiColumn VOption.fix (t, errs, casts) d0).2.1
            (checkOiColumn VOption.fix (t, errs, casts) d0).2.2
            hnd.2 d hdr c' hc'
        rw [s3 d.name hdname] at hOrig
        exact ⟨colOrig, hOrig, hrel⟩

/-- If the repair-mode loop queued no cast, every schema column present
in the input table already had the declared dtype. -/
theorem foldCheck_casts_nil (rest : List ColDesc) :
    ∀ (t : Table) (errs : List Finding) (casts : List String),
      (schemaNames rest).Nodup →
      (rest.foldl (checkOiColumn VOption.fix) (t, errs, casts)).2.2 = casts →
      ∀ d ∈ rest, ∀ col, lookupColumn t.columns d.name = some col →
        col.dtype = d.dtype := by
  induction rest with
  | nil =>
    intro t errs casts _ _ d hd
    exact absurd hd (List.not_mem_nil d)
  | cons d0 rest ih =>
    intro t errs casts hnd hnil d hd col hcol
    rw [schemaNames, List.map_cons, List.nodup_cons] at hnd
    have hne_rest : ∀ d' ∈ rest, d'.name ≠ d0.name := by
      intro d' hd' he
      exact hnd.1 (he ▸ List.mem_map_of_mem (fun d => d.name) hd')
    rw [List.foldl_cons] at hnil
    cases hl : lookupColumn t.columns d0.name with
    | none =>
      rw [checkOiColumn_no_column _ _ _ hl] at hnil
      rcases List.mem_cons.mp hd with rfl | hdr
      · rw [hl] at hcol
        exact absurd hcol (by simp)
      · exact ih t errs casts hnd.2 hnil d hdr col hcol
    | some col0 =>
      obtain ⟨_, _, s3, _⟩ :=
        checkOiColumn_table_facts VOption.fix t errs casts d0 col0 hl
      obtain ⟨_, _, _, ⟨ce2, hc2⟩, _⟩ := foldCheck_basic VOption.fix rest
        (checkOiColumn VOption.fix (t, errs, casts) d0).1
        (checkOiColumn VOption.fix (t, errs, casts) d0).2.1
        (checkOiColumn VOption.fix (t, errs, casts) d0).2.2
      rw [hc2] at hnil
      have hcasts1 := checkOiColumn_casts_eq VOption.fix t errs casts d0 col0 hl
      by_cases htb : decide (col0.dtype ≠ d0.dtype) = true
      · exfalso
        rw [if_pos htb] at hcasts1
        rw [hcasts1, List.append_assoc] at hnil
        have hnil2 : casts ++ ([d0.name] ++ ce2) = casts ++ [] := by
          rw [hnil]
          simp
        have := List.append_cancel_left hnil2
        simp at this
      · rw [if_neg htb] at hcasts1
        have hdty0 : col0.dtype = d0.dtype := by
          have := of_decide_eq_false (Bool.not_eq_true _ ▸ htb)
          exact not_not.mp this
        rcases List.mem_cons.mp hd with rfl | hdr
        · rw [hl] at hcol
          have : col0 = col := by injection hcol
          rw [← this]
          exact hdty0
        · have hce : ce2 = [] := by
            rw [hcasts1] at hnil
            have h0 : casts ++ ce2 = casts ++ [] := by rw [hnil]; simp
            exact List.append_cancel_left h0
          have hfoldc : (rest.foldl (checkOiColumn VOption.fix)
              ((checkOiColumn VOption.fix (t, errs, casts) d0).1,
               (checkOiColumn VOption.fix (t, errs, casts) d0).2.1,
               (checkOiColumn VOption.fix (t, errs, casts) d0).2.2)).2.2
              = (checkOiColumn VOption.fix (t, errs, casts) d0).2.2 := by
            rw [hc2, hce]
            simp
          have hih := ih (checkOiColumn VOption.fix (t, errs, casts) d0).1
            (checkOiColumn VOption.fix (t, errs, casts) d0).2.1
            (checkOiColumn VOption.fix (t, errs, casts) d0).2.2
            hnd.2 hfoldc d hdr col
          apply hih
          rw [s3 d.name (hne_rest d hdr)]
          exact hcol

/-- In report-only mode, over a table whose schema columns already have
the declared dtype and unit, the loop leaves the table and the cast
queue unchanged and reports only (unfixable) shape findings. -/
theorem foldCheck_warn_good (rest : List ColDesc) :
    ∀ (t : Table) (errs : List Finding) (casts : List String),
      (∀ d ∈ rest, ∀ col, lookupColumn t.columns d.name = some col →
        col.dtype = d.dtype ∧ col.unit = d.unit) →
      (rest.foldl (checkOiColumn VOption.warn) (t, errs, casts)).2.2 = casts
      ∧ (∃ ee, (rest.foldl (checkOiColumn VOption.warn) (t, errs, casts)).2.1 = errs ++ ee
          ∧ ∀ e ∈ ee, ∃ n, e = Finding.shapeMismatch n) := by
  induction rest with
  | nil =>
    intro t errs casts _
    exact ⟨rfl, [], by simp, by simp⟩
  | cons d0 rest ih =>
    intro t errs casts hgood
    rw [List.foldl_cons]
    cases hl : lookupColumn t.columns d0.name with
    | none =>
      rw [checkOiColumn_no_column _ _ _ hl]
      exact ih t errs casts
        (fun d hd col hcol => hgood d (List.mem_cons_of_mem d0 hd) col hcol)
    | some col0 =>
      have hT : (checkOiColumn VOption.warn (t, errs, casts) d0).1 = t :=
        checkOiColumn_warn_table t errs casts d0
      obtain ⟨hg1, hg2⟩ := hgood d0 (List.mem_cons_self d0 rest) col0 hl
      have hC : (checkOiColumn VOption.warn (t, errs, casts) d0).2.2 = casts :=
        checkOiColumn_casts_unchanged VOption.warn t errs casts d0 col0 hl hg1
      obtain ⟨ee1, hE, hclass1⟩ :=
        checkOiColumn_errs_good VOption.warn t errs casts d0 col0 hl hg1 hg2
      obtain ⟨ihC, ee2, ihE, hclass2⟩ :=
        ih (checkOiColumn VOption.warn (t, errs, casts) d0).1
          (checkOiColumn VOption.warn (t, errs, casts) d0).2.1
          (checkOiColumn VOption.warn (t, errs, casts) d0).2.2
          (by
            intro d hd col hcol
            rw [hT] at hcol
            exact hgood d (List.mem_cons_of_mem d0 hd) col hcol)
      refine ⟨by rw [ihC, hC], ee1 ++ ee2, ?_, ?_⟩
      · rw [ihE, hE, List.append_assoc]
      · intro e he
        rcases List.mem_append.mp he with h1 | h2
        · exact ⟨d0.name, hclass1 e h1⟩
        · exact hclass2 e h2

/-- The required-column check only produces missing-column findings. -/
theorem foldMissing_class (l : List ColDesc) :
    ∀ (acc : List Finding) (t : Table),
      (∀ e ∈ acc, ∃ n, e = Finding.missingColumn n) →
      ∀ e ∈ l.foldl (fun acc d => if (columnNames t).contains d.name then acc
          else acc ++ [Finding.missingColumn d.name]) acc,
        ∃ n, e = Finding.missingColumn n := by
  induction l with
  | nil =>
    intro acc t h e he
    exact h e he
  | cons d l ih =>
    intro acc t h e he
    rw [List.foldl_cons] at he
    apply ih _ t _ e he
    intro e' he'
    by_cases hc : ((columnNames t).contains d.name) = true
    · rw [if_pos hc] at he'
      exact h e' he'
    · rw [if_neg hc] at he'
      rcases List.mem_append.mp he' with h1 | h2
      · exact h e' h1
      · exact ⟨d.name, List.mem_singleton.mp h2⟩

/-! ### Lemmas for the rename, cast and rebuild stages of `_verify` -/

theorem contains_true_of_mem {l : List String} {a : String} (h : a ∈ l) :
    l.contains a = true :=
  List.elem_iff.mpr h

theorem contains_false_of_not_mem {l : List String} {a : String} (h : a ∉ l) :
    l.contains a = false := by
  cases hc : l.contains a with
  | false => rfl
  | true => exact absurd (List.elem_iff.mp hc) h

theorem hasUnderscore_NS (s : String) : hasUnderscore ("NS_" ++ s) = true := by
  rw [hasUnderscore, String.data_append]
  have h3 : ("NS_").data = ['N', 'S', '_'] := rfl
  rw [h3]
  simp [List.contains_cons]

theorem renameNonStd_names (cols : List Column) (subst : List String) :
    (renameNonStd cols subst).map (fun c => c.name)
      = (cols.map (fun c => c.name)).map
          (fun n => if subst.contains n then "NS_" ++ n else n) := by
  rw [renameNonStd, List.map_map, List.map_map]
  apply List.map_congr_left
  intro c _
  simp only [Function.comp_apply]
  by_cases h : subst.contains c.name = true
  · rw [if_pos h, if_pos h]
  · rw [if_neg h, if_neg h]

theorem lookupColumn_cons (c : Column) (cs : List Column) (n : String) :
    lookupColumn (c :: cs) n = if c.name = n then some c else lookupColumn cs n := by
  by_cases h : c.name = n
  · rw [lookupColumn, List.find?_cons_of_pos _ (by simp [h]), if_pos h]
  · rw [lookupColumn, List.find?_cons_of_neg _ (by simp [h]), if_neg h]
    rfl

theorem lookupColumn_renameNonStd (cols : List Column) (subst : List String)
    (n : String) (h1 : subst.contains n = false)
    (h2 : ∀ c ∈ cols, ("NS_" ++ c.name) ≠ n) :
    lookupColumn (renameNonStd cols subst) n = lookupColumn cols n := by
  induction cols with
  | nil => rfl
  | cons c cs ih =>
    have htail : lookupColumn (renameNonStd cs subst) n = lookupColumn cs n :=
      ih (fun c' hc' => h2 c' (List.mem_cons_of_mem c hc'))
    have hstep : renameNonStd (c :: cs) subst
        = (if subst.contains c.name then { c with name := "NS_" ++ c.name } else c)
          :: renameNonStd cs subst := rfl
    rw [hstep, lookupColumn_cons, lookupColumn_cons]
    by_cases hb : subst.contains c.name = true
    · rw [if_pos hb]
      have hNSne : ({ c with name := "NS_" ++ c.name } : Column).name ≠ n :=
        h2 c (List.mem_cons_self c cs)
      have hcne : c.name ≠ n := by
        intro he
        rw [he] at hb
        rw [h1] at hb
        exact absurd hb (by simp)
      rw [if_neg hNSne, if_neg hcne]
      exact htail
    · rw [if_neg hb]
      by_cases hcn : c.name = n
      · rw [if_pos hcn, if_pos hcn]
      · rw [if_neg hcn, if_neg hcn]
        exact htail

theorem schema_find_self (schema : List ColDesc) (d : ColDesc)
    (hnd : (schemaNames schema).Nodup) (hd : d ∈ schema) :
    schema.find? (fun q => q.name == d.name) = some d := by
  induction schema with
  | nil => exact absurd hd (List.not_mem_nil d)
  | cons d0 rest ih =>
    rw [schemaNames, List.map_cons, List.nodup_cons] at hnd
    rcases List.mem_cons.mp hd with rfl | hdr
    · rw [List.find?_cons_of_pos _ (by simp)]
    · have hne : d0.name ≠ d.name := by
        intro he
        exact hnd.1 (he ▸ List.mem_map_of_mem (fun q => q.name) hdr)
      rw [List.find?_cons_of_neg _ (by simp [hne])]
      exact ih hnd.2 hdr

theorem castVal_kind (dt : Dtype) (v w : Val) (h : castVal dt v = some w) :
    valKind w = dtypeKind dt := by
  cases dt <;> cases v <;> simp [castVal] at h <;> rw [← h] <;> rfl

theorem castVal_total (dt : Dtype) (v : Val) (h : valKind v = dtypeKind dt) :
    ∃ w, castVal dt v = some w := by
  cases dt <;> cases v <;> simp [valKind, dtypeKind] at h <;> exact ⟨_, rfl⟩

theorem castVals_some (dt : Dtype) (vs : List Val)
    (h : ∀ v ∈ vs, valKind v = dtypeKind dt) : ∃ ws, castVals dt vs = some ws := by
  induction vs with
  | nil => exact ⟨[], rfl⟩
  | cons v vs ih =>
    obtain ⟨w, hw⟩ := castVal_total dt v (h v (List.mem_cons_self v vs))
    obtain ⟨ws, hws⟩ := ih (fun v' hv' => h v' (List.mem_cons_of_mem v hv'))
    exact ⟨w :: ws, by rw [castVals, hw, hws]; rfl⟩

theorem castColumn_some_facts (d : ColDesc) (c c' : Column)
    (h : castColumn d c = some c') :
    c'.name = c.name ∧ c'.dtype = d.dtype ∧ c'.unit = d.unit ∧ c'.shape = c.shape := by
  rw [castColumn] at h
  cases hcv : castVals d.dtype c.values with
  | none =>
    rw [hcv] at h
    exact absurd h (by simp)
  | some ws =>
    rw [hcv, Option.map_some'] at h
    have hc' : ({ c with dtype := d.dtype, unit := d.unit, values := ws } : Column) = c' := by
      injection h
    rw [← hc']
    exact ⟨rfl, rfl, rfl, rfl⟩

theorem castColumn_of_castable (d : ColDesc) (c : Column)
    (h : ∀ v ∈ c.values, valKind v = dtypeKind d.dtype) :
    ∃ c', castColumn d c = some c' := by
  obtain ⟨ws, hws⟩ := castVals_some d.dtype c.values h
  exact ⟨{ c with dtype := d.dtype, unit := d.unit, values := ws },
    by rw [castColumn, hws, Option.map_some']⟩

theorem castColumnsFun_name (colsdesc : List ColDesc) (col : Column) :
    ((match colsdesc.find? (fun d => d.name == col.name) with
      | none => col
      | some d =>
        if d.dtype ≠ col.dtype then
          match castColumn d col with
          | none => col
          | some c => c
        else col : Column)).name = col.name := by
  cases hf : colsdesc.find? (fun d => d.name == col.name) with
  | none => rfl
  | some d =>
    dsimp only
    by_cases hdt : d.dtype ≠ col.dtype
    · rw [if_pos hdt]
      cases hcc : castColumn d col with
      | none => rfl
      | some c => exact (castColumn_some_facts d col c hcc).1
    · rw [if_neg hdt]

theorem castColumns_lookup (cols : List Column) (colsdesc : List ColDesc)
    (n : String) :
    lookupColumn (castColumns cols colsdesc) n
      = (lookupColumn cols n).map (fun col =>
          (match colsdesc.find? (fun d => d.name == col.name) with
          | none => col
          | some d =>
            if d.dtype ≠ col.dtype then
              match castColumn d col with
              | none => col
              | some c => c
            else col : Column)) :=
  lookupColumn_map cols n _ (fun c => castColumnsFun_name colsdesc c)

theorem castColumns_names (cols : List Column) (colsdesc : List ColDesc) :
    (castColumns cols colsdesc).map (fun c => c.name)
      = cols.map (fun c => c.name) :=
  map_names_of_pres cols _ (fun c => castColumnsFun_name colsdesc c)

/-- When every schema column present already has the declared dtype and
unit and every stored value passes the declared validator, the
per-descriptor loop leaves the table and the cast queue untouched. -/
theorem foldCheck_nomut (opt : VOption) (rest : List ColDesc) :
    ∀ (t : Table) (errs : List Finding) (casts : List String),
      (∀ d ∈ rest, ∀ col, lookupColumn t.columns d.name = some col →
        col.dtype = d.dtype ∧ col.unit = d.unit
        ∧ (∀ test, d.test = some test → ∀ v ∈ col.values, test v = true)) →
      (rest.foldl (checkOiColumn opt) (t, errs, casts)).1 = t
      ∧ (rest.foldl (checkOiColumn opt) (t, errs, casts)).2.2 = casts := by
  induction rest with
  | nil =>
    intro t errs casts _
    exact ⟨rfl, rfl⟩
  | cons d0 rest ih =>
    intro t errs casts hgood
    rw [List.foldl_cons]
    cases hl : lookupColumn t.columns d0.name with
    | none =>
      rw [checkOiColumn_no_column opt (t, errs, casts) d0 hl]
      exact ih t errs casts (fun d hd => hgood d (List.mem_cons_of_mem d0 hd))
    | some col0 =>
      obtain ⟨hg1, hg2, hg3⟩ := hgood d0 (List.mem_cons_self d0 rest) col0 hl
      have hT : (checkOiColumn opt (t, errs, casts) d0).1 = t :=
        checkOiColumn_nomut opt t errs casts d0 col0 hl hg2 hg3
      have hC : (checkOiColumn opt (t, errs, casts) d0).2.2 = casts :=
        checkOiColumn_casts_unchanged opt t errs casts d0 col0 hl hg1
      obtain ⟨ih1, ih2⟩ := ih (checkOiColumn opt (t, errs, casts) d0).1
        (checkOiColumn opt (t, errs, casts) d0).2.1
        (checkOiColumn opt (t, errs, casts) d0).2.2
        (by
          intro d hd col hcol
          rw [hT] at hcol
          exact hgood d (List.mem_cons_of_mem d0 hd) col hcol)
      exact ⟨by rw [ih1, hT], by rw [ih2, hC]⟩

/-- A name surviving the rename stage is schema-declared or carries an
underscore. -/
theorem renamed_names_good (schema : List ColDesc) (names : List String) (n : String)
    (h : n ∈ names.map (fun m =>
      if ((names.filter (fun x => !((schemaNames schema).contains x)
          && !(hasUnderscore x))).contains m) then "NS_" ++ m else m)) :
    (schemaNames schema).contains n = true ∨ hasUnderscore n = true := by
  obtain ⟨m, hm, he⟩ := List.mem_map.mp h
  by_cases hc : ((names.filter (fun x => !((schemaNames schema).contains x)
      && !(hasUnderscore x))).contains m) = true
  · rw [if_pos hc] at he
    rw [← he]
    exact Or.inr (hasUnderscore_NS m)
  · rw [if_neg hc] at he
    rw [← he]
    have hp : ¬ ((!((schemaNames schema).contains m) && !(hasUnderscore m)) = true) := by
      intro hp
      exact hc (contains_true_of_mem (List.mem_filter.mpr ⟨hm, hp⟩))
    cases hca : (schemaNames schema).contains m with
    | true => exact Or.inl rfl
    | false =>
      cases hcb : hasUnderscore m with
      | true => exact Or.inr rfl
      | false =>
        exfalso
        apply hp
        rw [hca, hcb]
        rfl

/-- Every column name of a repaired table is schema-declared or contains
an underscore. -/
theorem repairTable_names_good (schema : List ColDesc) (t : Table) :
    ∀ n ∈ columnNames (repairTable schema t),
      (schemaNames schema).contains n = true ∨ hasUnderscore n = true := by
  intro n hn
  unfold repairTable verifyTable at hn
  dsimp only at hn
  set ST := schema.foldl (checkOiColumn VOption.fix)
      (t, (schema.filter (fun d => d.required)).foldl
        (fun acc d => if (columnNames t).contains d.name then acc
                      else acc ++ [Finding.missingColumn d.name]) [], []) with hST
  have hcastnames : ∀ (tb : Table),
      columnNames (if ST.2.2 ≠ [] then
          { tb with columns := castColumns tb.columns schema } else tb)
        = columnNames tb := by
    intro tb
    by_cases hcd : ST.2.2 ≠ []
    · rw [if_pos hcd]
      exact castColumns_names tb.columns schema
    · rw [if_neg hcd]
  rw [hcastnames] at hn
  by_cases hsub : (columnNames ST.1).filter
      (fun m => !((schemaNames schema).contains m) && !(hasUnderscore m)) ≠ []
      ∧ VOption.fix = VOption.fix
  · rw [if_pos hsub] at hn
    have hn' : n ∈ (renameNonStd ST.1.columns ((columnNames ST.1).filter
        (fun m => !((schemaNames schema).contains m) && !(hasUnderscore m)))).map
        (fun c => c.name) := hn
    rw [renameNonStd_names] at hn'
    exact renamed_names_good schema (columnNames ST.1) n hn'
  · rw [if_neg hsub] at hn
    have hnil : (columnNames ST.1).filter
        (fun m => !((schemaNames schema).contains m) && !(hasUnderscore m)) = [] := by
      by_contra hne
      exact hsub ⟨hne, rfl⟩
    have hp := List.filter_eq_nil_iff.mp hnil n hn
    cases hca : (schemaNames schema).contains n with
    | true => exact Or.inl rfl
    | false =>
      cases hcb : hasUnderscore n with
      | true => exact Or.inr rfl
      | false =>
        exfalso
        apply hp
        rw [hca, hcb]
        rfl

/-- Every schema column present in a repaired table carries the declared
dtype and unit, provided schema names are pairwise distinct, stored
kinds agree with declared kinds, and no schema name collides with a
renamed non-standard name. -/
theorem repairTable_schema_good (schema : List ColDesc) (t : Table)
    (hnd : (schemaNames schema).Nodup)
    (hkind : ∀ d ∈ schema, ∀ c, lookupColumn t.columns d.name = some c →
      dtypeKind c.dtype = dtypeKind d.dtype
      ∧ ∀ v ∈ c.values, valKind v = dtypeKind c.dtype)
    (hcollide : ∀ d ∈ schema, ∀ c ∈ t.columns, d.name ≠ "NS_" ++ c.name) :
    ∀ d ∈ schema, ∀ c, lookupColumn (repairTable schema t).columns d.name = some c →
      c.dtype = d.dtype ∧ c.unit = d.unit := by
  intro d hd c hc
  unfold repairTable verifyTable at hc
  dsimp only at hc
  set ST := schema.foldl (checkOiColumn VOption.fix)
      (t, (schema.filter (fun q => q.required)).foldl
        (fun acc q => if (columnNames t).contains q.name then acc
                      else acc ++ [Finding.missingColumn q.name]) [], []) with hST
  have hnames : columnNames ST.1 = columnNames t := by
    rw [hST]
    exact (foldCheck_basic VOption.fix schema t _ []).1
  have hd_sub_false : ((columnNames ST.1).filter
      (fun m => !((schemaNames schema).contains m) && !(hasUnderscore m))).contains d.name
      = false := by
    apply contains_false_of_not_mem
    intro hmem
    obtain ⟨_, hp⟩ := List.mem_filter.mp hmem
    have hdn : d.name ∈ schemaNames schema :=
      List.mem_map_of_mem (fun q => q.name) hd
    have hcontr : (schemaNames schema).contains d.name = true :=
      contains_true_of_mem hdn
    rw [hcontr] at hp
    exact absurd hp (by simp)
  have hlookT2 : lookupColumn (if (columnNames ST.1).filter
        (fun m => !((schemaNames schema).contains m) && !(hasUnderscore m)) ≠ []
        ∧ VOption.fix = VOption.fix then
        { ST.1 with columns := renameNonStd ST.1.columns ((columnNames ST.1).filter
          (fun m => !((schemaNames schema).contains m) && !(hasUnderscore m))) }
      else ST.1).columns d.name
      = lookupColumn ST.1.columns d.name := by
    by_cases hsub : (columnNames ST.1).filter
        (fun m => !((schemaNames schema).contains m) && !(hasUnderscore m)) ≠ []
        ∧ VOption.fix = VOption.fix
    · rw [if_pos hsub]
      apply lookupColumn_renameNonStd _ _ _ hd_sub_false
      intro cc hcc heq
      have hccn : cc.name ∈ columnNames ST.1 :=
        List.mem_map_of_mem (fun q => q.name) hcc
      rw [hnames] at hccn
      obtain ⟨c0, hc0, hc0n⟩ := List.mem_map.mp hccn
      apply hcollide d hd c0 hc0
      rw [← heq, hc0n]
    · rw [if_neg hsub]
  by_cases hcast : ST.2.2 ≠ []
  · rw [if_pos hcast] at hc
    dsimp only at hc
    rw [castColumns_lookup, hlookT2, Option.map_eq_some'] at hc
    obtain ⟨b, hb, hgb⟩ := hc
    have hbexp := hb
    rw [hST] at hbexp
    obtain ⟨colOrig, hlookO, hbname, hbdt, hbsh, hbunit, hbvals⟩ :=
      foldCheck_good schema t _ [] hnd d hd b hbexp
    have hbn : b.name = d.name := lookupColumn_name _ _ _ hb
    rw [hbn, schema_find_self schema d hnd hd] at hgb
    dsimp only at hgb
    by_cases hdt : d.dtype ≠ b.dtype
    · rw [if_pos hdt] at hgb
      have hkb : ∀ v ∈ b.values, valKind v = dtypeKind d.dtype := by
        intro v hv
        obtain ⟨hkO1, hkO2⟩ := hkind d hd colOrig hlookO
        rcases hbvals v hv with hvo | ⟨dv, hdv, hcastv⟩
        · rw [hkO2 v hvo, hkO1]
        · rw [castVal_kind colOrig.dtype dv v hcastv]
          rw [hkO1]
      obtain ⟨c', hcc⟩ := castColumn_of_castable d b hkb
      rw [hcc] at hgb
      dsimp only at hgb
      obtain ⟨hn', hdt', hu', hs'⟩ := castColumn_some_facts d b c' hcc
      rw [← hgb]
      exact ⟨hdt', hu'⟩
    · rw [if_neg hdt] at hgb
      have hdd : d.dtype = b.dtype := not_not.mp hdt
      rw [← hgb]
      exact ⟨hdd.symm, hbunit⟩
  · rw [if_neg hcast, hlookT2] at hc
    have hcexp := hc
    rw [hST] at hcexp
    obtain ⟨colOrig, hlookO, _, hcdt, _, hcunit, _⟩ :=
      foldCheck_good schema t _ [] hnd d hd c hcexp
    have hcastnil : ST.2.2 = [] := not_not.mp hcast
    have hfoldnil := hcastnil
    rw [hST] at hfoldnil
    have hdtO : colOrig.dtype = d.dtype :=
      foldCheck_casts_nil schema t _ [] hnd hfoldnil d hd colOrig hlookO
    exact ⟨hcdt.trans hdtO, hcunit⟩

/-- An empty `invalidColumns` report means every stored value of every
schema column passes its declared validator. -/
theorem invalidColumns_nil_valid (schema : List ColDesc) (t : Table)
    (h : invalidColumns schema t = []) :
    ∀ d ∈ schema, ∀ col, lookupColumn t.columns d.name = some col →
      ∀ test, d.test = some test → ∀ v ∈ col.values, test v = true := by
  intro d hd col hcol test htest v hv
  unfold invalidColumns at h
  rw [List.map_eq_nil_iff] at h
  have hq := List.filter_eq_nil_iff.mp h d hd
  rw [htest, hcol] at hq
  have hq2 : (col.values.any (fun w => ! test w)) = false := by
    cases hany : col.values.any (fun w => ! test w) with
    | false => rfl
    | true =>
      exfalso
      apply hq
      exact hany
  have h3 := List.any_eq_false.mp hq2 v hv
  cases htv : test v with
  | true => rfl
  | false =>
    exfalso
    apply h3
    rw [htv]
    rfl

/-- C1 (amended): repair is not idempotent in general (the per-value fix
casts the default to the *stored* dtype before the batched type cast
rebuilds the column, cf. the counterexample), but under the conditions
the data model guarantees in practice — pairwise-distinct schema names,
stored kinds agreeing with declared kinds, and no schema name colliding
with a renamed non-standard name — one repair pass stabilises the table:
a report-only re-run returns zero fixable findings, and, whenever the
repaired values pass their validators, a second repair pass returns the
table unchanged. -/
theorem repair_stabilises (schema : List ColDesc) (t : Table)
    (hnd : (schemaNames schema).Nodup)
    (hkind : ∀ d ∈ schema, ∀ c, lookupColumn t.columns d.name = some c →
      dtypeKind c.dtype = dtypeKind d.dtype
      ∧ ∀ v ∈ c.values, valKind v = dtypeKind c.dtype)
    (hcollide : ∀ d ∈ schema, ∀ c ∈ t.columns, d.name ≠ "NS_" ++ c.name) :
    fixableFindings schema (repairTable schema t) = []
    ∧ (invalidColumns schema (repairTable schema t) = [] →
        repairTable schema (repairTable schema t) = repairTable schema t) := by
  have hgood := repairTable_schema_good schema t hnd hkind hcollide
  have hnamesg := repairTable_names_good schema t
  constructor
  · unfold fixableFindings verifyTable
    dsimp only
    set ST1 := schema.foldl (checkOiColumn VOption.warn)
      (repairTable schema t, (schema.filter (fun q => q.required)).foldl
        (fun acc q => if (columnNames (repairTable schema t)).contains q.name then acc
                      else acc ++ [Finding.missingColumn q.name]) [], []) with hST1
    have hw := foldCheck_warn_good schema (repairTable schema t)
      ((schema.filter (fun q => q.required)).foldl
        (fun acc q => if (columnNames (repairTable schema t)).contains q.name then acc
                      else acc ++ [Finding.missingColumn q.name]) []) []
      (fun d hd col hcol => hgood d hd col hcol)
    rw [← hST1] at hw
    obtain ⟨hwc, ee, hee, hshape⟩ := hw
    have htbl : ST1.1 = repairTable schema t := by
      rw [hST1]
      exact (foldCheck_basic VOption.warn schema (repairTable schema t) _ []).2.2.2.2 rfl
    have hsubnil1 : (columnNames ST1.1).filter
        (fun m => !((schemaNames schema).contains m) && !(hasUnderscore m)) = [] := by
      rw [htbl]
      apply List.filter_eq_nil_iff.mpr
      intro m hm hp
      rcases hnamesg m hm with h | h <;> rw [h] at hp <;> simp at hp
    rw [if_neg (not_not_intro hsubnil1), hee, List.filter_append]
    have hf1 : (((schema.filter (fun q => q.required)).foldl
        (fun acc q => if (columnNames (repairTable schema t)).contains q.name then acc
                      else acc ++ [Finding.missingColumn q.name]) [])).filter
        Finding.fixable = [] := by
      apply List.filter_eq_nil_iff.mpr
      intro e he hf
      obtain ⟨nm, rfl⟩ := foldMissing_class (schema.filter (fun q => q.required)) []
        (repairTable schema t) (fun e' he' => absurd he' (List.not_mem_nil e')) e he
      simp [Finding.fixable] at hf
    have hf2 : ee.filter Finding.fixable = [] := by
      apply List.filter_eq_nil_iff.mpr
      intro e he hf
      obtain ⟨nm, rfl⟩ := hshape e he
      simp [Finding.fixable] at hf
    rw [hf1, hf2]
    rfl
  · intro hval
    have hvalid := invalidColumns_nil_valid schema (repairTable schema t) hval
    generalize hT1 : repairTable schema t = T1
    rw [hT1] at hgood hnamesg hvalid
    obtain ⟨hnm1, hnm2⟩ := foldCheck_nomut VOption.fix schema T1
      ((schema.filter (fun q => q.required)).foldl
        (fun acc q => if (columnNames T1).contains q.name then acc
                      else acc ++ [Finding.missingColumn q.name]) []) []
      (by
        intro d hd col hcol
        obtain ⟨h1, h2⟩ := hgood d hd col hcol
        exact ⟨h1, h2, hvalid d hd col hcol⟩)
    unfold repairTable verifyTable
    dsimp only
    set ST2 := schema.foldl (checkOiColumn VOption.fix)
      (T1, (schema.filter (fun q => q.required)).foldl
        (fun acc q => if (columnNames T1).contains q.name then acc
                      else acc ++ [Finding.missingColumn q.name]) [], []) with hST2
    have hsubnil2 : (columnNames ST2.1).filter
        (fun m => !((schemaNames schema).contains m) && !(hasUnderscore m)) = [] := by
      rw [hnm1]
      apply List.filter_eq_nil_iff.mpr
      intro m hm hp
      rcases hnamesg m hm with h | h <;> rw [h] at hp <;> simp at hp
    rw [if_neg (not_not_intro hnm2),
      if_neg (fun hand => not_not_intro hsubnil2 hand.1)]
    exact hnm1

theorem repair_stabilises_witness :
    fixableFindings [categoryDesc] (repairTable [categoryDesc] invalidCategoryTable) = []
    ∧ (invalidColumns [categoryDesc]
          (repairTable [categoryDesc] invalidCategoryTable) = [] →
        repairTable [categoryDesc] (repairTable [categoryDesc] invalidCategoryTable)
          = repairTable [categoryDesc] invalidCategoryTable) :=
  repair_stabilises [categoryDesc] invalidCategoryTable (by decide)
    (by
      intro d hd c hc
      have hde : d = categoryDesc := by
        rcases List.mem_cons.mp hd with h | h
        · exact h
        · exact absurd h (List.not_mem_nil d)
      subst hde
      have hcc : c = ⟨"CATEGORY", Dtype.str 3, "", [], [Val.s "XX"]⟩ := by
        have hl : lookupColumn invalidCategoryTable.columns categoryDesc.name
            = some ⟨"CATEGORY", Dtype.str 3, "", [], [Val.s "XX"]⟩ := rfl
        rw [hl] at hc
        injection hc with h
        exact h.symm
      subst hcc
      exact ⟨rfl, by decide⟩)
    (by decide)

/-- C8 (amended): the naming-convention check flags exactly the columns
whose name is absent from the schema's declared names and contains no
underscore (not "does not carry the `NS_` prefix", cf. the
counterexample); they are reported in a single fixable finding holding
exactly that list, no other finding of that kind is produced, and in
repair mode exactly those columns are renamed by prepending `NS_`. -/
theorem nonstd_naming_characterisation (schema : List ColDesc) (opt : VOption)
    (t : Table) :
    ∃ errs1,
      (verifyTable schema opt t).2 = errs1
          ++ (if ((columnNames t).filter (fun n =>
                !((schemaNames schema).contains n) && !(hasUnderscore n))) ≠ [] then
              [Finding.nonStdNames ((columnNames t).filter (fun n =>
                !((schemaNames schema).contains n) && !(hasUnderscore n)))] else [])
      ∧ (∀ e ∈ errs1, ∀ ns, e ≠ Finding.nonStdNames ns)
      ∧ Finding.fixable (Finding.nonStdNames ((columnNames t).filter (fun n =>
          !((schemaNames schema).contains n) && !(hasUnderscore n)))) = true
      ∧ columnNames (verifyTable schema VOption.fix t).1
          = (columnNames t).map (fun n =>
              if ((columnNames t).filter (fun m =>
                !((schemaNames schema).contains m) && !(hasUnderscore m))).contains n
              then "NS_" ++ n else n) := by
  unfold verifyTable
  dsimp only
  set STo := schema.foldl (checkOiColumn opt)
    (t, (schema.filter (fun q => q.required)).foldl
      (fun acc q => if (columnNames t).contains q.name then acc
                    else acc ++ [Finding.missingColumn q.name]) [], []) with hSTo
  set STf := schema.foldl (checkOiColumn VOption.fix)
    (t, (schema.filter (fun q => q.required)).foldl
      (fun acc q => if (columnNames t).contains q.name then acc
                    else acc ++ [Finding.missingColumn q.name]) [], []) with hSTf
  have hnameso : columnNames STo.1 = columnNames t := by
    rw [hSTo]
    exact (foldCheck_basic opt schema t _ []).1
  have hnamesf : columnNames STf.1 = columnNames t := by
    rw [hSTf]
    exact (foldCheck_basic VOption.fix schema t _ []).1
  refine ⟨STo.2.1, ?_, ?_, rfl, ?_⟩
  · rw [hnameso]
    by_cases hs : (columnNames t).filter
        (fun n => !((schemaNames schema).contains n) && !(hasUnderscore n)) ≠ []
    · rw [if_pos hs, if_pos hs]
    · rw [if_neg hs, if_neg hs, List.append_nil]
  · intro e he ns
    have hb := (foldCheck_basic opt schema t
      ((schema.filter (fun q => q.required)).foldl
        (fun acc q => if (columnNames t).contains q.name then acc
                      else acc ++ [Finding.missingColumn q.name]) []) []).2.2.1
    rw [← hSTo] at hb
    obtain ⟨ee, hee, hclass⟩ := hb
    rw [hee] at he
    rcases List.mem_append.mp he with h0 | hE
    · obtain ⟨nm, rfl⟩ := foldMissing_class (schema.filter (fun q => q.required)) []
        t (fun e' he' => absurd he' (List.not_mem_nil e')) e h0
      simp
    · rcases hclass e hE with ⟨nm, rfl⟩ | ⟨nm, rfl⟩ | ⟨nm, rfl⟩ <;> simp
  · have hcastnames : ∀ tb : Table,
        columnNames (if STf.2.2 ≠ [] then
            { tb with columns := castColumns tb.columns schema } else tb)
          = columnNames tb := by
      intro tb
      by_cases hcd : STf.2.2 ≠ []
      · rw [if_pos hcd]
        exact castColumns_names tb.columns schema
      · rw [if_neg hcd]
    rw [hcastnames, hnamesf]
    by_cases hs2 : (columnNames t).filter
        (fun n => !((schemaNames schema).contains n) && !(hasUnderscore n)) ≠ []
        ∧ VOption.fix = VOption.fix
    · rw [if_pos hs2]
      have hcn : ∀ (cols : List Column) (nw : Nat),
          columnNames ⟨cols, nw⟩ = cols.map (fun c => c.name) :=
        fun _ _ => rfl
      rw [hcn, renameNonStd_names]
      have hcn2 : STf.1.columns.map (fun c => c.name) = columnNames STf.1 := rfl
      rw [hcn2, hnamesf]
    · rw [if_neg hs2]
      have hs2' : (columnNames t).filter
          (fun n => !((schemaNames schema).contains n) && !(hasUnderscore n)) = [] := by
        by_contra hne
        exact hs2 ⟨hne, rfl⟩
      rw [hnamesf, hs2']
      simp

theorem cascade_referential_closure_witness :
    (mergeFitsRowsId (fun p : Int × Int => p.1) (fun a b => decide (a.2 = b.2))
        [(1, 10), (2, 20)] [[(1, 20), (2, 30)]]
      = some ([[(1, 10), (2, 20)], [(2, 30)]], [[], [(1, 2), (2, 3)]]))
    ∧ seqRewrite ([[], [(1, 2), (2, 3)]].getD 1 []) 1
        ∈ mergedIdColumn (fun p : Int × Int => p.1)
          [[(1, 10), (2, 20)], [(2, 30)]] [[], [(1, 2), (2, 3)]] :=
  ⟨by decide,
    cascade_referential_closure (fun p : Int × Int => p.1)
      (fun a b => decide (a.2 = b.2)) [(1, 10), (2, 20)] [[(1, 20), (2, 30)]]
      [[(1, 10), (2, 20)], [(2, 30)]] [[], [(1, 2), (2, 3)]] 1 1
      (by decide) (by decide) (by decide)⟩

end OIFits
